import Mathlib

/-!
Verification of the VintedSniper core against its specification.

This file gives a shallow embedding, in Lean 4, of the two core components of
the repository — the query-expansion / fuzzy-matching engine
(`fuzzy_matcher.py`) and the market-valuation engine (`valuation_engine.py`) —
and proves or refutes the frozen behavioural claims about them.

Modelling conventions:
* Python strings are modelled as `List Char` (`Str` below); Python floats as
  exact rationals (`ℚ`); Python `int` as `ℤ`.
* Semi-structured JSON payloads (from the pricing API) are modelled by the
  inductive `JsonVal`; Python `None` is `JsonVal.null`.
* Python code that can raise is modelled in `Except PyErr`; the `PyErr`
  constructors name the Python exception classes relevant to the code paths.
* The external libraries `unidecode` and `rapidfuzz` are not part of the
  repository; the character transliteration table and similarity scorer are
  modelled (see their doc comments), with all claim-relevant structure kept.
-/

namespace VintedSniper

/-- Python strings, modelled as lists of characters. -/
abbrev Str := List Char

/-- The whitespace characters recognised by Python's `str.split()` /
`str.strip()` (restricted to the ASCII whitespace class). -/
def pyIsSpace (c : Char) : Bool :=
  c = ' ' || c = '\t' || c = '\n' || c = '\r' || c = '\x0b' || c = '\x0c'

/-- Python `str.strip(chars)`: drop the characters satisfying `p` from both
ends. -/
def stripBoth (p : Char → Bool) (s : Str) : Str :=
  ((s.dropWhile p).reverse.dropWhile p).reverse

/-- Python `str.strip()`: drop leading and trailing whitespace. -/
def pyStrip (s : Str) : Str := stripBoth pyIsSpace s

/-- Auxiliary for `splitWords`: splits into segments at whitespace,
keeping empty segments (there is always at least one segment). -/
def wordsAux : Str → List Str
  | [] => [[]]
  | c :: rest =>
    let acc := wordsAux rest
    if pyIsSpace c then [] :: acc
    else (c :: acc.headD []) :: acc.tail

/-- Python `str.split()` with no argument: split on whitespace runs,
discarding empty pieces. -/
def splitWords (s : Str) : List Str :=
  (wordsAux s).filter (fun w => w ≠ [])

/-- Python `" ".join(words)`. -/
def joinSpace : List Str → Str
  | [] => []
  | [w] => w
  | w :: rest => w ++ ' ' :: joinSpace rest

/-- The lower-casing table for ASCII letters. -/
def asciiLowerPairs : List (Char × Char) :=
  [('A', 'a'), ('B', 'b'), ('C', 'c'), ('D', 'd'), ('E', 'e'), ('F', 'f'),
   ('G', 'g'), ('H', 'h'), ('I', 'i'), ('J', 'j'), ('K', 'k'), ('L', 'l'),
   ('M', 'm'), ('N', 'n'), ('O', 'o'), ('P', 'p'), ('Q', 'q'), ('R', 'r'),
   ('S', 's'), ('T', 't'), ('U', 'u'), ('V', 'v'), ('W', 'w'), ('X', 'x'),
   ('Y', 'y'), ('Z', 'z')]

/-- Lower-casing entries for the accented characters covered by the
transliteration model below. -/
def extraLowerPairs : List (Char × Char) :=
  [('É', 'é'), ('È', 'è'), ('Ê', 'ê'), ('À', 'à'), ('Â', 'â'), ('Ç', 'ç'),
   ('Î', 'î'), ('Ô', 'ô'), ('Û', 'û'), ('Ö', 'ö'), ('Ä', 'ä'), ('Ü', 'ü')]

/-- Python `str.lower()`, character by character. -/
def pyLowerChar (c : Char) : Char :=
  ((asciiLowerPairs ++ extraLowerPairs).lookup c).getD c

/-- Python `str.lower()`. -/
def pyLower (s : Str) : Str := s.map pyLowerChar

/-- The transliteration table for `unidecode` restricted to the accented
Latin characters this model covers.  Modelled from the spec: `unidecode` is
an external library whose full data tables are not in the repository; the
spec requires only "transliterated to a base [ASCII] alphabet".  ASCII
characters map to themselves, table entries to their ASCII forms, and any
other character to the empty string (as `unidecode` does for unmapped
code points). -/
def unidecodePairs : List (Char × Str) :=
  [('é', ['e']), ('è', ['e']), ('ê', ['e']), ('à', ['a']), ('â', ['a']),
   ('ç', ['c']), ('î', ['i']), ('ô', ['o']), ('û', ['u']), ('ö', ['o']),
   ('ä', ['a']), ('ü', ['u']),
   ('É', ['E']), ('È', ['E']), ('Ê', ['E']), ('À', ['A']), ('Â', ['A']),
   ('Ç', ['C']), ('Î', ['I']), ('Ô', ['O']), ('Û', ['U']),
   ('Ö', ['O']), ('Ä', ['A']), ('Ü', ['U'])]

/-- `unidecode` on one character. -/
def unidecodeChar (c : Char) : Str :=
  if c.toNat < 128 then [c] else (unidecodePairs.lookup c).getD []

/-- `unidecode` on a string. -/
def unidecodeStr (s : Str) : Str := s.flatMap unidecodeChar

/-- The separator characters replaced by spaces in `_normalize_text`. -/
def isPunctSep (c : Char) : Bool := c = '-' || c = '_' || c = '&' || c = '\''

/-- `fuzzy_matcher._normalize_text`: transliterate, replace `- _ & '` with
spaces, lower-case, collapse whitespace.  Falsy input yields `""`. -/
def normalizeText (text : Option Str) : Str :=
  match text with
  | none => []
  | some s =>
    if s = [] then []
    else
      joinSpace (splitWords
        (pyLower ((unidecodeStr s).map (fun c => if isPunctSep c then ' ' else c))))

/-- `normalizeText` on a present string (the common case in the claims). -/
def normStr (s : Str) : Str := normalizeText (some s)

/-- A character is *normal* when `_normalize_text` leaves it unchanged:
fixed by transliteration and lower-casing, not a replaced separator, and not
whitespace.  Characters of normalized tokens are normal; the breadth-first
search below preserves this. -/
def normalChar (c : Char) : Bool :=
  decide (unidecodeChar c = [c]) && decide (pyLowerChar c = c) &&
    !isPunctSep c && !pyIsSpace c

/-- A non-empty word all of whose characters are normal. -/
def normalWord (w : Str) : Prop := w ≠ [] ∧ ∀ c ∈ w, normalChar c = true

/-- The per-character action of the normalizer pipeline before word
splitting: replace the separator characters by spaces, then lower-case. -/
def gchar (c : Char) : Char := pyLowerChar (if isPunctSep c then ' ' else c)

/-- The character-level stage of `_normalize_text` (everything before word
splitting): transliterate, then clean each resulting character. -/
def gStr (s : Str) : Str := (unidecodeStr s).map gchar

/-- Python exception classes that the modelled code paths can raise. -/
inductive PyErr where
  | keyError
  | indexError
  | typeError
  | attributeError
  deriving DecidableEq, Repr

/-- Semi-structured values as decoded from the pricing API's JSON
(`response.json()`), with `null` also standing for Python `None`. -/
inductive JsonVal where
  | null
  | bool (b : Bool)
  | num (q : ℚ)
  | str (s : Str)
  | arr (xs : List JsonVal)
  | obj (fields : List (Str × JsonVal))

mutual

/-- Decidable equality for `JsonVal` (Python `==` on JSON-decoded values). -/
def JsonVal.decEq : (a b : JsonVal) → Decidable (a = b)
  | .null, .null => isTrue rfl
  | .bool a, .bool b =>
    if h : a = b then isTrue (by rw [h]) else isFalse (fun e => h (by injection e))
  | .num a, .num b =>
    if h : a = b then isTrue (by rw [h]) else isFalse (fun e => h (by injection e))
  | .str a, .str b =>
    if h : a = b then isTrue (by rw [h]) else isFalse (fun e => h (by injection e))
  | .arr xs, .arr ys =>
    match JsonVal.decEqList xs ys with
    | isTrue h => isTrue (by rw [h])
    | isFalse h => isFalse (fun e => h (by injection e))
  | .obj xs, .obj ys =>
    match JsonVal.decEqFields xs ys with
    | isTrue h => isTrue (by rw [h])
    | isFalse h => isFalse (fun e => h (by injection e))
  | .null, .bool _ => isFalse (by intro h; exact JsonVal.noConfusion h)
  | .null, .num _ => isFalse (by intro h; exact JsonVal.noConfusion h)
  | .null, .str _ => isFalse (by intro h; exact JsonVal.noConfusion h)
  | .null, .arr _ => isFalse (by intro h; exact JsonVal.noConfusion h)
  | .null, .obj _ => isFalse (by intro h; exact JsonVal.noConfusion h)
  | .bool _, .null => isFalse (by intro h; exact JsonVal.noConfusion h)
  | .bool _, .num _ => isFalse (by intro h; exact JsonVal.noConfusion h)
  | .bool _, .str _ => isFalse (by intro h; exact JsonVal.noConfusion h)
  | .bool _, .arr _ => isFalse (by intro h; exact JsonVal.noConfusion h)
  | .bool _, .obj _ => isFalse (by intro h; exact JsonVal.noConfusion h)
  | .num _, .null => isFalse (by intro h; exact JsonVal.noConfusion h)
  | .num _, .bool _ => isFalse (by intro h; exact JsonVal.noConfusion h)
  | .num _, .str _ => isFalse (by intro h; exact JsonVal.noConfusion h)
  | .num _, .arr _ => isFalse (by intro h; exact JsonVal.noConfusion h)
  | .num _, .obj _ => isFalse (by intro h; exact JsonVal.noConfusion h)
  | .str _, .null => isFalse (by intro h; exact JsonVal.noConfusion h)
  | .str _, .bool _ => isFalse (by intro h; exact JsonVal.noConfusion h)
  | .str _, .num _ => isFalse (by intro h; exact JsonVal.noConfusion h)
  | .str _, .arr _ => isFalse (by intro h; exact JsonVal.noConfusion h)
  | .str _, .obj _ => isFalse (by intro h; exact JsonVal.noConfusion h)
  | .arr _, .null => isFalse (by intro h; exact JsonVal.noConfusion h)
  | .arr _, .bool _ => isFalse (by intro h; exact JsonVal.noConfusion h)
  | .arr _, .num _ => isFalse (by intro h; exact JsonVal.noConfusion h)
  | .arr _, .str _ => isFalse (by intro h; exact JsonVal.noConfusion h)
  | .arr _, .obj _ => isFalse (by intro h; exact JsonVal.noConfusion h)
  | .obj _, .null => isFalse (by intro h; exact JsonVal.noConfusion h)
  | .obj _, .bool _ => isFalse (by intro h; exact JsonVal.noConfusion h)
  | .obj _, .num _ => isFalse (by intro h; exact JsonVal.noConfusion h)
  | .obj _, .str _ => isFalse (by intro h; exact JsonVal.noConfusion h)
  | .obj _, .arr _ => isFalse (by intro h; exact JsonVal.noConfusion h)

/-- Decidable equality for lists of `JsonVal`. -/
def JsonVal.decEqList : (xs ys : List JsonVal) → Decidable (xs = ys)
  | [], [] => isTrue rfl
  | [], _ :: _ => isFalse (by intro h; exact List.noConfusion h)
  | _ :: _, [] => isFalse (by intro h; exact List.noConfusion h)
  | x :: xs, y :: ys =>
    match JsonVal.decEq x y with
    | isTrue h1 =>
      match JsonVal.decEqList xs ys with
      | isTrue h2 => isTrue (by rw [h1, h2])
      | isFalse h2 => isFalse (fun e => h2 (by injection e))
    | isFalse h1 => isFalse (fun e => h1 (by injection e))

/-- Decidable equality for JSON object field lists. -/
def JsonVal.decEqFields : (xs ys : List (Str × JsonVal)) → Decidable (xs = ys)
  | [], [] => isTrue rfl
  | [], _ :: _ => isFalse (by intro h; exact List.noConfusion h)
  | _ :: _, [] => isFalse (by intro h; exact List.noConfusion h)
  | (k1, v1) :: xs, (k2, v2) :: ys =>
    if hk : k1 = k2 then
      match JsonVal.decEq v1 v2 with
      | isTrue hv =>
        match JsonVal.decEqFields xs ys with
        | isTrue ht => isTrue (by rw [hk, hv, ht])
        | isFalse ht => isFalse (fun e => ht (by injection e))
      | isFalse hv =>
        isFalse (fun e => hv (by
          injection e with e1 e2
          exact congrArg Prod.snd e1))
    else
      isFalse (fun e => hk (by
        injection e with e1 e2
        exact congrArg Prod.fst e1))

end

instance : DecidableEq JsonVal := JsonVal.decEq

/-- Python truthiness for the modelled values: `None`, `False`, `0`, `""`,
`[]` and `{}` are falsy. -/
def pyTruthy : JsonVal → Bool
  | .null => false
  | .bool b => b
  | .num q => decide (q ≠ 0)
  | .str s => !s.isEmpty
  | .arr xs => !xs.isEmpty
  | .obj fs => !fs.isEmpty

/-- Python subscripting `v[0]`: lists index, strings index, dictionaries look
up the key `0` (absent from string-keyed JSON dictionaries, hence `KeyError`),
other values raise `TypeError`. -/
def pyIndex0 : JsonVal → Except PyErr JsonVal
  | .arr (x :: _) => .ok x
  | .arr [] => .error .indexError
  | .str (c :: _) => .ok (.str [c])
  | .str [] => .error .indexError
  | .obj _ => .error .keyError
  | _ => .error .typeError

/-- Python `d.get(key, default)`: only dictionaries have `.get`; every other
value raises `AttributeError`. -/
def pyGetD (v : JsonVal) (key : Str) (default : JsonVal) : Except PyErr JsonVal :=
  match v with
  | .obj fields =>
    match fields.lookup key with
    | some x => .ok x
    | none => .ok default
  | _ => .error .attributeError

/-- Python `d.get(key)` (default `None`). -/
def pyGet (v : JsonVal) (key : Str) : Except PyErr JsonVal :=
  pyGetD v key .null

/-- Python `a or b` on modelled values. -/
def pyOr (a b : JsonVal) : JsonVal :=
  if pyTruthy a then a else b

/-- Value of a decimal digit character, `none` for non-digits. -/
def digitVal (c : Char) : Option Nat :=
  if '0' ≤ c ∧ c ≤ '9' then some (c.toNat - '0'.toNat) else none

/-- Read a run of decimal digits as a number, `none` if any character is not
a digit.  An empty run reads as `some 0`; callers check non-emptiness. -/
def digitsVal (s : Str) : Option Nat :=
  s.foldl (fun acc c =>
    match acc, digitVal c with
    | some n, some d => some (n * 10 + d)
    | _, _ => none) (some 0)

/-- Parse the mantissa part of a Python float literal:
`digits`, `digits.digits`, `.digits` or `digits.`, needing ≥ 1 digit. -/
def parseMantissa (m : Str) : Option ℚ :=
  match m.splitOn '.' with
  | [i] =>
    if i = [] then none
    else (digitsVal i).map (fun n => (n : ℚ))
  | [i, f] =>
    if i = [] ∧ f = [] then none
    else
      match digitsVal i, digitsVal f with
      | some a, some b => some ((a : ℚ) + (b : ℚ) / (10 : ℚ) ^ f.length)
      | _, _ => none
  | _ => none

/-- Parse the exponent part of a Python float literal: optional sign and
a non-empty digit run. -/
def parseExponent (e : Str) : Option ℤ :=
  let (esign, edigits) : ℤ × Str :=
    match e with
    | '+' :: r => (1, r)
    | '-' :: r => (-1, r)
    | r => (1, r)
  if edigits = [] then none
  else (digitsVal edigits).map (fun n => esign * (n : ℤ))

/-- Python `float(string)`: optional surrounding whitespace, optional sign,
then `mantissa [ (e|E) exponent ]`.  The result is the exact rational value.
(The special spellings `inf`/`nan` have no rational value and are treated as
unparseable; they do not occur in the claims.) -/
def parseFloatStr (s : Str) : Option ℚ :=
  let t := pyStrip s
  let (sign, t) : ℚ × Str :=
    match t with
    | '+' :: r => (1, r)
    | '-' :: r => (-1, r)
    | r => (1, r)
  match (t.map (fun c => if c = 'E' then 'e' else c)).splitOn 'e' with
  | [m] => (parseMantissa m).map (fun b => sign * b)
  | [m, e] =>
    match parseMantissa m, parseExponent e with
    | some b, some ex => some (sign * b * (10 : ℚ) ^ ex)
    | _, _ => none
  | _ => none

/-- Python `float(value)` restricted to the successful/caught outcomes:
`some q` when coercion succeeds, `none` when it raises `TypeError` or
`ValueError` (both are caught at the call site in `_extract_price`). -/
def pyFloat : JsonVal → Option ℚ
  | .num q => some q
  | .bool b => some (if b then 1 else 0)
  | .str s => parseFloatStr s
  | _ => none

/-- `fuzzy_matcher.MAX_VARIANTS`. -/
def MAX_VARIANTS : Nat := 5

/-- `fuzzy_matcher.WORD_SUBSTITUTIONS`, in dictionary (insertion) order. -/
def WORD_SUBSTITUTIONS : List (Str × List Str) :=
  [("ph".data, ["f".data]),
   ("f".data, ["ph".data]),
   ("ck".data, ["k".data, "c".data]),
   ("oo".data, ["u".data, "o".data]),
   ("ou".data, ["u".data, "o".data]),
   ("ie".data, ["ei".data]),
   ("ei".data, ["ie".data]),
   ("y".data, ["i".data]),
   ("i".data, ["y".data]),
   ("c".data, ["k".data, "q".data, "s".data]),
   ("k".data, ["c".data, "q".data]),
   ("q".data, ["k".data, "c".data]),
   ("v".data, ["w".data, "b".data]),
   ("w".data, ["v".data]),
   ("b".data, ["v".data]),
   ("m".data, ["n".data]),
   ("n".data, ["m".data]),
   ("ll".data, ["l".data]),
   ("rr".data, ["r".data]),
   ("ss".data, ["s".data]),
   ("tt".data, ["t".data]),
   ("pp".data, ["p".data]),
   ("ch".data, ["sh".data]),
   ("sh".data, ["ch".data]),
   ("gh".data, ["g".data]),
   ("g".data, ["gh".data, "j".data]),
   ("j".data, ["g".data])]

/-- `sorted(WORD_SUBSTITUTIONS, key=len, reverse=True)`: the substitution
patterns by decreasing length; Python's sort is stable, so patterns of equal
length keep dictionary order. -/
def sortedSubstKeys : List Str :=
  ["ph".data, "ck".data, "oo".data, "ou".data, "ie".data, "ei".data,
   "ll".data, "rr".data, "ss".data, "tt".data, "pp".data, "ch".data,
   "sh".data, "gh".data,
   "f".data, "y".data, "i".data, "c".data, "k".data, "q".data, "v".data,
   "w".data, "b".data, "m".data, "n".data, "g".data, "j".data]

/-- The duplicate-letter collapse loop of `_generate_word_variants`
(`word[:idx] + word[idx+1:]` for each `idx` with `word[idx] == word[idx+1]`),
by recursion on the position. -/
def collapseVariants : Str → List Str
  | [] => []
  | [_] => []
  | x :: y :: rest =>
    (if x = y then [y :: rest] else []) ++ (collapseVariants (y :: rest)).map (x :: ·)

/-- The adjacent-swap loop of `_generate_word_variants`
(`word[:idx] + word[idx+1] + word[idx] + word[idx+2:]` for each `idx` with
`word[idx] != word[idx+1]`). -/
def swapVariants : Str → List Str
  | [] => []
  | [_] => []
  | x :: y :: rest =>
    (if x ≠ y then [y :: x :: rest] else []) ++ (swapVariants (y :: rest)).map (x :: ·)

/-- All start positions of `p` inside a word, ascending — the positions the
`word.find(pattern, start)` / `start = found + 1` loop visits. -/
def substPositions (p : Str) : Str → List Nat
  | [] => []
  | w@(_ :: rest) =>
    (if p.isPrefixOf w then [0] else []) ++ (substPositions p rest).map (· + 1)

/-- The substitution-rule loop of `_generate_word_variants`: for each
pattern (longest first), each occurrence, each replacement,
`word[:found] + replacement + word[found+len(pattern):]`. -/
def substitutionVariants (word : Str) : List Str :=
  sortedSubstKeys.flatMap (fun p =>
    (substPositions p word).flatMap (fun i =>
      ((WORD_SUBSTITUTIONS.lookup p).getD []).map
        (fun r => word.take i ++ r ++ word.drop (i + p.length))))

/-- Keep the first occurrence of each element. -/
def dedupFirstAux (seen : List Str) : List Str → List Str
  | [] => []
  | x :: xs =>
    if x ∈ seen then dedupFirstAux seen xs
    else x :: dedupFirstAux (seen ++ [x]) xs

/-- Deduplicate, keeping first occurrences. -/
def dedupFirst (l : List Str) : List Str := dedupFirstAux [] l

/-- `fuzzy_matcher._generate_word_variants`.  The source collects variants
in a Python `set`, whose iteration order is unspecified; this model fixes
first-insertion order (collapses, swaps, substitutions).  The final
comprehension keeps non-empty variants different from the word. -/
def generateWordVariants (word : Str) : List Str :=
  if word = [] then []
  else
    (dedupFirst (collapseVariants word ++ swapVariants word ++ substitutionVariants word)).filter
      (fun v => v ≠ [] ∧ v ≠ word)

/-- The mutable state of `_expand_search_text_variants`: the insertion-ordered
`collected` dictionary (normalized key ↦ stripped value) and the
`seen_sequences` set (as an insertion-ordered list). -/
structure BfsState where
  collected : List (Str × Str)
  seen : List Str

/-- `add_variant(value)`: key by normalized form, skip empty or duplicate
keys, store the stripped value. -/
def addVariant (st : BfsState) (value : Str) : BfsState :=
  let normalized_key := normStr value
  if normalized_key = [] ∨ normalized_key ∈ st.collected.map Prod.fst then st
  else { st with collected := st.collected ++ [(normalized_key, pyStrip value)] }

/-- Invariant of the collected dictionary during the variant search, relative
to the normalized base `nb`: keys are distinct, each key is the normalized
form of its stored value, and each entry either is keyed by `nb` or stores
exactly its own key. -/
def stInv (nb : Str) (st : BfsState) : Prop :=
  (st.collected.map Prod.fst).Nodup ∧
  (∀ p ∈ st.collected, normStr p.2 = p.1) ∧
  (∀ p ∈ st.collected, p.1 = nb ∨ p.2 = p.1)

/-- The inner candidate loop of the breadth-first search: one token position,
iterating the word variants of its token.  Returns the updated state, the
token sequences appended to the queue, and whether the generation guard
(`len(collected) >= MAX_VARIANTS * 3`) fired (breaking all loops). -/
def candLoop (tokens : List Str) (idx : Nat) (depth : Nat) :
    List Str → BfsState → List (List Str) → BfsState × List (List Str) × Bool
  | [], st, appends => (st, appends, false)
  | cand :: rest, st, appends =>
    let new_tokens := tokens.set idx cand
    let key := joinSpace new_tokens
    if key ∈ st.seen then candLoop tokens idx depth rest st appends
    else
      let st1 : BfsState := { st with seen := st.seen ++ [key] }
      let st2 := addVariant st1 (joinSpace new_tokens)
      if MAX_VARIANTS * 3 ≤ st2.collected.length then (st2, appends, true)
      else if depth < 1 then candLoop tokens idx depth rest st2 (appends ++ [new_tokens])
      else candLoop tokens idx depth rest st2 appends

/-- The `for idx, token in enumerate(tokens)` loop of the search, with the
per-position guard check. -/
def idxLoop (tokens : List Str) (depth : Nat) :
    List Nat → BfsState → List (List Str) → BfsState × List (List Str) × Bool
  | [], st, appends => (st, appends, false)
  | idx :: restIdx, st, appends =>
    let res := candLoop tokens idx depth (generateWordVariants (tokens.getD idx [])) st appends
    if res.2.2 then res
    else if MAX_VARIANTS * 3 ≤ res.1.collected.length then (res.1, res.2.1, true)
    else idxLoop tokens depth restIdx res.1 res.2.1

/-- The `while queue` loop of `_expand_search_text_variants`.  Only items of
depth `0` enqueue successors (`if depth < 1`), which bounds the recursion:
the count of depth-`0` queue items, then the queue length, decreases. -/
def whileLoop : List (List Str × Nat) → BfsState → BfsState
  | [], st => st
  | (tokens, depth) :: rest, st =>
    let res := idxLoop tokens depth (List.range tokens.length) st []
    if res.2.2 then res.1
    else if MAX_VARIANTS * 3 ≤ res.1.collected.length then res.1
    else whileLoop (rest ++ (res.2.1.map (fun ts => (ts, depth + 1)))) res.1
termination_by queue _ => (queue.countP (fun q => decide (q.2 = 0)), queue.length)
decreasing_by
  have hcand : ∀ (cands : List Str) (idx : Nat) (st : BfsState) (app : List (List Str)),
      1 ≤ depth → (candLoop tokens idx depth cands st app).2.1 = app := by
    intro cands
    induction cands with
    | nil => intro idx st app hd; simp [candLoop]
    | cons c cs ih =>
      intro idx st app hd
      simp only [candLoop]
      split
      · exact ih idx st app hd
      · split
        · rfl
        · split
          · omega
          · exact ih idx _ app hd
  have hidx : ∀ (idxs : List Nat) (st : BfsState) (app : List (List Str)),
      1 ≤ depth → (idxLoop tokens depth idxs st app).2.1 = app := by
    intro idxs
    induction idxs with
    | nil => intro st app hd; simp [idxLoop]
    | cons i is ih =>
      intro st app hd
      simp only [idxLoop]
      split
      · exact hcand _ i st app hd
      · split
        · exact hcand _ i st app hd
        · rw [ih _ _ hd, hcand _ i st app hd]
  rcases Nat.eq_zero_or_pos depth with hd | hd
  · subst hd
    apply Prod.Lex.left
    have : (res.2.1.map (fun ts => (ts, 1))).countP (fun q => decide (q.2 = 0)) = 0 := by
      simp [List.countP_eq_zero]
    simp only [List.countP_append, this, List.countP_cons]
    simp
  · have hres : res.2.1 = [] := hidx _ _ _ hd
    rw [hres]
    simp only [List.map_nil, List.append_nil]
    have hne : depth ≠ 0 := by omega
    have hc : (((tokens, depth) :: rest).countP (fun q => decide (q.2 = 0)))
        = rest.countP (fun q => decide (q.2 = 0)) := by
      simp [List.countP_cons, hne]
    rw [hc]
    apply Prod.Lex.right
    simp

/-- The Levenshtein edit distance (`rapidfuzz.distance.Levenshtein.distance`
with unit costs). -/
def lev : Str → Str → Nat
  | [], ys => ys.length
  | xs, [] => xs.length
  | x :: xs, y :: ys =>
    if x = y then lev xs ys
    else 1 + min (lev xs ys) (min (lev (x :: xs) ys) (lev xs (y :: ys)))
termination_by xs ys => xs.length + ys.length
decreasing_by all_goals simp_arith

/-- `fuzzy_matcher._expand_search_text_variants`: seeds (original, lowered,
transliterated), breadth-first two-edit search over token sequences, then
ranking by `(Levenshtein distance to the normalized base, value)` and
truncation to `MAX_VARIANTS`. -/
def expandSearchTextVariants (search_text : Option Str) : List Str :=
  match search_text with
  | none => []
  | some s =>
    let base := pyStrip s
    if base = [] then []
    else
      let normalized_base := normStr base
      let st0 := addVariant ⟨[], []⟩ base
      let st1 := addVariant st0 (pyLower base)
      let st2 := addVariant st1 (unidecodeStr base)
      let normalized_tokens := splitWords normalized_base
      let stF :=
        if normalized_tokens.isEmpty then st2
        else whileLoop [(normalized_tokens, 0)] { st2 with seen := [joinSpace normalized_tokens] }
      let scored := stF.collected.map (fun kv => (lev normalized_base kv.1, kv.2))
      let sortedPairs := scored.mergeSort
        (fun a b => decide (a.1 < b.1 ∨ (a.1 = b.1 ∧ ¬ b.2 < a.2)))
      (sortedPairs.map Prod.snd).take MAX_VARIANTS

/-- `fuzzy_matcher.encode_query_name`.  `replaceDelim` is
`.replace(QUERY_NAME_DELIMITER, " ")` (left-to-right, non-overlapping) and
`stripPipes` is `.strip(QUERY_NAME_DELIMITER)`, which strips the *character*
`'|'` from both ends. -/
def replaceDelim : Str → Str
  | '|' :: '|' :: rest => ' ' :: replaceDelim rest
  | c :: rest => c :: replaceDelim rest
  | [] => []

/-- Python `.strip("||")`: strip `'|'` characters from both ends. -/
def stripPipes (s : Str) : Str := stripBoth (fun c => c = '|') s

/-- `fuzzy_matcher.encode_query_name`. -/
def encode_query_name (display_name base_search_text : Option Str) : Option Str :=
  let display := replaceDelim (pyStrip (display_name.getD []))
  let base := replaceDelim (pyStrip (base_search_text.getD []))
  if base ≠ [] then
    let combined := if display ≠ [] then display else base
    some (stripPipes (combined ++ '|' :: '|' :: base))
  else if display ≠ [] then some display
  else none

/-- Split at the first occurrence of `"||"` (Python
`raw_value.split("||", 1)` when the delimiter is present). -/
def splitOnceDelim : Str → Option (Str × Str)
  | [] => none
  | '|' :: '|' :: rest => some ([], rest)
  | c :: rest => (splitOnceDelim rest).map (fun p => (c :: p.1, p.2))

/-- `fuzzy_matcher.decode_query_name`. -/
def decode_query_name (raw_value : Option Str) : Option Str × Option Str :=
  match raw_value with
  | none => (none, none)
  | some raw =>
    if raw = [] then (none, none)
    else
      match splitOnceDelim raw with
      | some (d, b) =>
        let display := pyStrip d
        let base := pyStrip b
        ((if display = [] then none else some display),
         (if base = [] then none else some base))
      | none =>
        let cleaned := pyStrip raw
        ((if cleaned = [] then none else some cleaned), none)

/-- `fuzzy_matcher._build_fuzzy_targets`: the normalized base phrase, plus
each of its tokens of length ≥ 4 not already present, as an insertion-ordered
dictionary (normalized target ↦ display form). -/
def build_fuzzy_targets (base_search_text : Str) : List (Str × Str) :=
  let normalized_base := normStr base_search_text
  if normalized_base = [] then []
  else
    (splitWords normalized_base).foldl
      (fun targets token =>
        if 4 ≤ token.length ∧ targets.lookup token = none then targets ++ [(token, token)]
        else targets)
      [(normalized_base, pyStrip base_search_text)]

/-- One dynamic-programming row step for the longest common subsequence. -/
def lcsRowGo (x : Char) : Str → List Nat → Nat → Nat → List Nat
  | [], _, _, _ => []
  | y :: ys, prev, diag, left =>
    let up := prev.headD 0
    let cur := if x = y then diag + 1 else max left up
    cur :: lcsRowGo x ys prev.tail up cur

/-- Length of the longest common subsequence, by dynamic programming. -/
def lcsLen (a b : Str) : Nat :=
  (a.foldl (fun row x => 0 :: lcsRowGo x b row.tail (row.headD 0) 0)
    (List.replicate (b.length + 1) 0)).getLastD 0

/-- The Indel (insertion/deletion) edit distance:
`|a| + |b| - 2·LCS(a, b)`. -/
def indelDist (a b : Str) : Nat := a.length + b.length - 2 * lcsLen a b

/-- Normalized Indel similarity as a percentage in `[0, 100]`
(`rapidfuzz.fuzz.ratio`). -/
def ratioScore (a b : Str) : ℚ :=
  if a = [] ∧ b = [] then 100
  else (1 - (indelDist a b : ℚ) / ((a.length : ℚ) + (b.length : ℚ))) * 100

/-- Whole-string order used for Python's `sorted` on token lists. -/
def strLeB (a b : Str) : Bool := !decide (b < a)

/-- Modelled from the spec: the token-set similarity metric
(`rapidfuzz.fuzz.token_set_ratio`, an external library dependency not in
`src/`): an order- and duplicate-insensitive token overlap ratio in
`[0, 100]`.  Both strings are tokenized into sorted unique token lists; the
score is the best normalized Indel similarity among (intersection vs
intersection+left-difference), (intersection vs
intersection+right-difference), and the two combined strings. -/
def tokenSetScore (s1 s2 : Str) : ℚ :=
  let tokens1 := (dedupFirst (splitWords s1)).mergeSort strLeB
  let tokens2 := (dedupFirst (splitWords s2)).mergeSort strLeB
  let sect := tokens1.filter (fun t => t ∈ tokens2)
  let diff1 := tokens1.filter (fun t => t ∉ tokens2)
  let diff2 := tokens2.filter (fun t => t ∉ tokens1)
  let sect_str := joinSpace sect
  let combined1 := joinSpace (sect ++ diff1)
  let combined2 := joinSpace (sect ++ diff2)
  max (ratioScore sect_str combined1)
    (max (ratioScore sect_str combined2) (ratioScore combined1 combined2))

/-- One step of `process.extractOne`: keep the incumbent unless the new
choice scores strictly higher. -/
def extractStep (query : Str) (best : Option (Str × ℚ)) (c : Str) : Option (Str × ℚ) :=
  match best with
  | none => some (c, tokenSetScore query c)
  | some (bc, bs) =>
    let s := tokenSetScore query c
    if s > bs then some (c, s) else some (bc, bs)

/-- `rapidfuzz.process.extractOne` with `scorer=token_set_ratio` and no
cutoff: the best-scoring choice, first on ties (replacement only on a
strictly greater score). -/
def extractOne (query : Str) (choices : List Str) : Option (Str × ℚ) :=
  choices.foldl (extractStep query) none

/-- The fuzzy-match result dictionary built by `find_best_fuzzy_match`. -/
structure FuzzyMatchResult where
  score : ℚ
  source : Str
  target : Str
  source_text : Str
  deriving DecidableEq

/-- One iteration of the `("title", title), ("brand", brand)` loop in
`find_best_fuzzy_match`: normalize the candidate, score it against every
target with `extractOne`, and replace the incumbent only when the score
clears the threshold and strictly exceeds the incumbent's. -/
def fuzzyCandidateStep (targets : List (Str × Str)) (choices : List Str)
    (threshold : ℚ) (best : Option FuzzyMatchResult) (sc : Str × Option Str) :
    Option FuzzyMatchResult :=
  let normalized_candidate := normalizeText sc.2
  if normalized_candidate = [] then best
  else
    match extractOne normalized_candidate choices with
    | none => best
    | some (choice, score) =>
      if score < threshold then best
      else
        match best with
        | none =>
          some ⟨score, sc.1, (targets.lookup choice).getD [], pyStrip (sc.2.getD [])⟩
        | some b =>
          if score > b.score then
            some ⟨score, sc.1, (targets.lookup choice).getD [], pyStrip (sc.2.getD [])⟩
          else some b

/-- `fuzzy_matcher.find_best_fuzzy_match`. -/
def find_best_fuzzy_match (base_search_text title brand : Option Str)
    (threshold : ℚ) : Option FuzzyMatchResult :=
  match base_search_text with
  | none => none
  | some base =>
    if base = [] then none
    else
      let targets := build_fuzzy_targets base
      if targets.isEmpty then none
      else
        let choices := targets.map Prod.fst
        (["title".data, "brand".data].zip [title, brand]).foldl
          (fuzzyCandidateStep targets choices threshold) none

instance {ε α : Type} [DecidableEq ε] [DecidableEq α] : DecidableEq (Except ε α) := fun
  | .ok a, .ok b =>
    if h : a = b then isTrue (by rw [h]) else isFalse (fun e => h (by injection e))
  | .error a, .error b =>
    if h : a = b then isTrue (by rw [h]) else isFalse (fun e => h (by injection e))
  | .ok _, .error _ => isFalse (fun e => Except.noConfusion e)
  | .error _, .ok _ => isFalse (fun e => Except.noConfusion e)

/-- `valuation_engine.ListingComp`: a comparable listing.  The `title`,
`currency`, `url` and `image` fields hold whatever JSON value the response
carried (the dataclass annotations are not enforced at runtime); `price`
holds the result of a successful `float(...)` coercion or `None`. -/
structure ListingComp where
  title : JsonVal
  price : Option ℚ
  currency : JsonVal
  url : JsonVal
  image : JsonVal
  source : Str
  deriving DecidableEq

namespace EbayMarketDataFetcher

/-- `EbayMarketDataFetcher._extract_price`.  Mirrors the Python body:
falsy input short-circuits; `price_info[0]` is attempted with only
`IndexError` and `TypeError` caught (so a mapping input propagates
`KeyError`); `.get` calls catch `AttributeError`; the final `float(...)`
catches `TypeError`/`ValueError` (modelled by `pyFloat` returning `none`). -/
def extract_price (price_info : JsonVal) : Except PyErr (Option ℚ × JsonVal) := do
  if pyTruthy price_info = false then return (none, .null)
  let info : JsonVal ←
    match pyIndex0 price_info with
    | .ok x => .ok x
    | .error .indexError => .ok price_info
    | .error .typeError => .ok price_info
    | .error e => .error e
  let value : JsonVal :=
    match pyGet info "__value__".data with
    | .ok v => v
    | .error _ => .null
  let currency : JsonVal :=
    match pyGet info "@currencyId".data with
    | .ok v => v
    | .error _ => .null
  if value = .null then return (none, currency)
  match pyFloat value with
  | some q => return (some q, currency)
  | none => return (none, currency)

/-- The selling-state extraction performed inside the `fetch_sold_comps`
loop: `item.get("sellingStatus", [{}])[0].get("sellingState", [""])[0]`. -/
def sellingStateOf (item : JsonVal) : Except PyErr JsonVal :=
  match pyGetD item "sellingStatus".data (.arr [.obj []]) with
  | .error e => .error e
  | .ok ss0 =>
    match pyIndex0 ss0 with
    | .error e => .error e
    | .ok selling_status =>
      match pyGetD selling_status "sellingState".data (.arr [.str []]) with
      | .error e => .error e
      | .ok st0 => pyIndex0 st0

/-- One iteration of the `fetch_sold_comps` result loop: price extraction,
the `EndedWithSales` filter (`none` = filtered out by `continue`), and the
construction of the `ListingComp`.  Field accesses occur in source order;
any raised exception propagates. -/
def processSoldItem (item : JsonVal) : Except PyErr (Option ListingComp) :=
  match pyGetD item "sellingStatus".data (.arr [.obj []]) with
  | .error e => .error e
  | .ok ss0 =>
  match pyIndex0 ss0 with
  | .error e => .error e
  | .ok selling_status =>
  match pyGet selling_status "convertedCurrentPrice".data with
  | .error e => .error e
  | .ok converted =>
  match pyGet selling_status "currentPrice".data with
  | .error e => .error e
  | .ok current =>
  match extract_price (pyOr converted current) with
  | .error e => .error e
  | .ok pc =>
  match pyGetD selling_status "sellingState".data (.arr [.str []]) with
  | .error e => .error e
  | .ok st0 =>
  match pyIndex0 st0 with
  | .error e => .error e
  | .ok state =>
  if pyTruthy state = true ∧ state ≠ .str "EndedWithSales".data then .ok none
  else
  match pyGetD item "title".data (.arr [.str []]) with
  | .error e => .error e
  | .ok t0 =>
  match pyIndex0 t0 with
  | .error e => .error e
  | .ok title =>
  match pyGetD item "viewItemURL".data (.arr [.null]) with
  | .error e => .error e
  | .ok u0 =>
  match pyIndex0 u0 with
  | .error e => .error e
  | .ok url =>
  match pyGetD item "galleryURL".data (.arr [.null]) with
  | .error e => .error e
  | .ok i0 =>
  match pyIndex0 i0 with
  | .error e => .error e
  | .ok image => .ok (some ⟨title, pc.1, pc.2, url, image, "eBay sold".data⟩)

/-- The `fetch_sold_comps` comps loop over the extracted item list: any
exception raised on an item propagates out of the whole call. -/
def soldCompsOfItems : List JsonVal → Except PyErr (List ListingComp)
  | [] => .ok []
  | item :: rest =>
    match processSoldItem item with
    | .error e => .error e
    | .ok c? =>
      match soldCompsOfItems rest with
      | .error e => .error e
      | .ok cs =>
        match c? with
        | some c => .ok (c :: cs)
        | none => .ok cs

/-- `str(max(1, min(limit, 100)))` in `fetch_sold_comps`: the page size
requested from the pricing API. -/
def sold_entriesPerPage (limit : ℤ) : ℤ := max 1 (min limit 100)

/-- `str(max(1, min(limit, 100)))` in `fetch_active_listings`. -/
def active_entriesPerPage (limit : ℤ) : ℤ := max 1 (min limit 100)

/-- The request parameters built by `fetch_sold_comps` (values as the
strings sent on the wire; the clamped page size is stringified). -/
def fetch_sold_params (app_id query : Str) (limit : ℤ) : List (Str × Str) :=
  [("OPERATION-NAME".data, "findCompletedItems".data),
   ("SERVICE-VERSION".data, "1.13.0".data),
   ("SECURITY-APPNAME".data, app_id),
   ("RESPONSE-DATA-FORMAT".data, "JSON".data),
   ("REST-PAYLOAD".data, "true".data),
   ("keywords".data, query),
   ("itemFilter(0).name".data, "SoldItemsOnly".data),
   ("itemFilter(0).value".data, "true".data),
   ("paginationInput.entriesPerPage".data, (toString (sold_entriesPerPage limit)).data),
   ("sortOrder".data, "EndTimeSoonest".data)]

/-- The request parameters built by `fetch_active_listings`. -/
def fetch_active_params (app_id query : Str) (limit : ℤ) : List (Str × Str) :=
  [("OPERATION-NAME".data, "findItemsAdvanced".data),
   ("SERVICE-VERSION".data, "1.13.0".data),
   ("SECURITY-APPNAME".data, app_id),
   ("RESPONSE-DATA-FORMAT".data, "JSON".data),
   ("REST-PAYLOAD".data, "true".data),
   ("keywords".data, query),
   ("paginationInput.entriesPerPage".data, (toString (active_entriesPerPage limit)).data),
   ("sortOrder".data, "PricePlusShippingLowest".data)]

end EbayMarketDataFetcher

/-- `valuation_engine.MarketSummary` with its dataclass defaults. -/
structure MarketSummary where
  minimum : Option ℚ := none
  maximum : Option ℚ := none
  median : Option ℚ := none
  currency : JsonVal := .null
  sample_size : Nat := 0
  source : Str := []
  prices : List ℚ := []
  deriving DecidableEq

/-- `valuation_engine.NormalizationResult`. -/
structure NormalizationResult where
  title : Str
  brand : Option Str
  canonical_query : Str
  fuzzy_term : Option Str
  fuzzy_score : Option ℚ
  match_quality : Str
  deriving DecidableEq

/-- The fuzzy-result dictionary consumed by `ListingNormalizer.normalize`:
its `"target"` entry (a string or `None`, per the producer
`find_best_fuzzy_match`) and its `"score"` entry (defended against arbitrary
values by `float(...)` with `TypeError`/`ValueError` caught). -/
structure FuzzyResultDict where
  target : Option Str
  score : JsonVal
  deriving DecidableEq

/-- `valuation_engine.ValuationResult`.  `profit_currency` is `JsonVal`
because `_estimate_profit` returns either `None`, the summary's currency
value, or the item-currency string. -/
structure ValuationResult where
  normalization : NormalizationResult
  sold_summary : MarketSummary
  active_summary : Option MarketSummary
  profit : Option ℚ
  profit_currency : JsonVal
  profit_multiple : Option ℚ
  confidence_label : Str
  confidence_icon : Str
  item_price : ℚ
  item_currency : Str
  sold_comps : List ListingComp
  active_listings : List ListingComp
  deriving DecidableEq

/-- Python `min(l)` for a non-empty list (call sites guarantee
non-emptiness; `0` is junk on `[]`). -/
def pyMin : List ℚ → ℚ
  | [] => 0
  | x :: xs => xs.foldl min x

/-- Python `max(l)` for a non-empty list. -/
def pyMax : List ℚ → ℚ
  | [] => 0
  | x :: xs => xs.foldl max x

/-- Python `statistics.median(data)`: sort, take the middle element (odd
length) or the mean of the two middle elements (even length).  Call sites
only use non-empty data; `0` is junk on `[]`. -/
def pyMedian (data : List ℚ) : ℚ :=
  let s := data.mergeSort (fun a b => decide (a ≤ b))
  let n := s.length
  if n % 2 = 1 then s.getD (n / 2) 0
  else (s.getD (n / 2 - 1) 0 + s.getD (n / 2) 0) / 2

/-- Python `statistics.pstdev(data)` squared, i.e. the population variance:
`Σ (x - mean)² / n`.  The square root itself is irrational in general; the
one consumer (`_has_low_variance`) is modelled on the squared comparison,
see its doc comment. -/
def pyPVariance (data : List ℚ) : ℚ :=
  let n := data.length
  if n = 0 then 0
  else
    let mean := data.sum / (n : ℚ)
    (data.map (fun x => (x - mean) ^ 2)).sum / (n : ℚ)

namespace ValuationEngine

/-- `currency_groups.setdefault(listing.currency, []).append(listing.price)`:
append a price to its currency group, keeping first-insertion group order. -/
def groupAdd (groups : List (JsonVal × List ℚ)) (currency : JsonVal) (price : ℚ) :
    List (JsonVal × List ℚ) :=
  if groups.any (fun g => g.1 = currency) then
    groups.map (fun g => if g.1 = currency then (g.1, g.2 ++ [price]) else g)
  else groups ++ [(currency, [price])]

/-- The grouping loop of `ValuationEngine._summarize`: comps with a `None`
price or `None` currency are skipped. -/
def currencyGroups (listings : List ListingComp) : List (JsonVal × List ℚ) :=
  listings.foldl
    (fun groups l =>
      match l.price with
      | none => groups
      | some p => if l.currency = .null then groups else groupAdd groups l.currency p)
    []

/-- `max(currency_groups.items(), key=lambda item: len(item[1]))`: Python
`max` keeps the first maximal element (replacement only on strictly greater
key). -/
def maxGroup (g : JsonVal × List ℚ) (gs : List (JsonVal × List ℚ)) : JsonVal × List ℚ :=
  gs.foldl (fun acc h => if h.2.length > acc.2.length then h else acc) g

/-- `ValuationEngine._summarize`. -/
def summarize (listings : List ListingComp) (default_source : Str) : MarketSummary :=
  if listings.isEmpty then { source := default_source }
  else
    match currencyGroups listings with
    | [] => { source := default_source }
    | g :: gs =>
      let best := maxGroup g gs
      let sorted_prices := best.2.mergeSort (fun a b => decide (a ≤ b))
      { minimum := some (pyMin sorted_prices)
        maximum := some (pyMax sorted_prices)
        median := some (pyMedian sorted_prices)
        currency := best.1
        sample_size := sorted_prices.length
        source := default_source
        prices := sorted_prices }

/-- `ValuationEngine._estimate_profit`.  Note the truthiness guard
`if summary.currency and summary.currency != item_currency`: a falsy
currency (e.g. the empty string) skips the mismatch check, and
`summary.currency or item_currency` falls back to the item currency. -/
def estimate_profit (summary : MarketSummary) (item_price : ℚ) (item_currency : Str) :
    Option ℚ × JsonVal × Option ℚ :=
  match summary.median with
  | none => (none, .null, none)
  | some med =>
    if summary.sample_size = 0 then (none, .null, none)
    else if pyTruthy summary.currency ∧ summary.currency ≠ .str item_currency then
      (none, summary.currency, none)
    else
      let profit := med - item_price
      let multiple : Option ℚ := if item_price > 0 then some (med / item_price) else none
      (some profit,
       if pyTruthy summary.currency then summary.currency else .str item_currency,
       multiple)

/-- `ValuationEngine._has_low_variance`.  The source computes
`pstdev(prices) / median ≤ threshold`; with `median > 0` on that branch this
holds iff `0 ≤ threshold ∧ pstdev² ≤ threshold² · median²`, which is the
square-free (rational) form used here. -/
def has_low_variance (low_variance_threshold : ℚ) (prices : List ℚ) : Bool :=
  if prices.length < 2 then true
  else
    let med := pyMedian prices
    if med ≤ 0 then false
    else
      let variance := pyPVariance prices
      if variance = 0 then true
      else decide (0 ≤ low_variance_threshold ∧
        variance ≤ low_variance_threshold ^ 2 * med ^ 2)

/-- `ValuationEngine._score_confidence`.  `score = fuzzy_score or 0`
coincides with `getD 0` because `0.0` is itself falsy. -/
def score_confidence (low_variance_threshold : ℚ) (fuzzy_score : Option ℚ)
    (summary : MarketSummary) : Str × Str :=
  let comps := summary.sample_size
  if comps < 4 then ("Low".data, "🟠".data)
  else
    let score := fuzzy_score.getD 0
    if score ≥ 90 ∧ comps ≥ 8 ∧
        has_low_variance low_variance_threshold summary.prices = true then
      ("High".data, "🟢".data)
    else if (82 ≤ score ∧ score < 90) ∨ (4 ≤ comps ∧ comps ≤ 7) then
      ("Medium".data, "🟡".data)
    else if comps ≥ 8 then ("Medium".data, "🟡".data)
    else ("Low".data, "🟠".data)

end ValuationEngine

namespace ListingNormalizer

/-- `ListingNormalizer._clean`: transliterate, replace `-`/`_` with spaces,
collapse whitespace, strip. -/
def clean (value : Option Str) : Str :=
  match value with
  | none => []
  | some v =>
    if v = [] then []
    else
      pyStrip (joinSpace (splitWords
        ((unidecodeStr v).map (fun c => if c = '-' ∨ c = '_' then ' ' else c))))

/-- `ListingNormalizer.normalize`. -/
def normalize (title brand base_search_text : Option Str)
    (fuzzy_result : Option FuzzyResultDict) : NormalizationResult :=
  let cleaned_title := clean title
  let cleaned_brand := clean brand
  let fuzzyPart : Option Str × Option ℚ :=
    match fuzzy_result with
    | none => (none, none)
    | some fr =>
      let t := pyStrip (fr.target.getD [])
      ((if t = [] then none else some t), pyFloat fr.score)
  let fuzzy_term : Option Str :=
    match fuzzyPart.1 with
    | some t => some t
    | none =>
      match base_search_text with
      | none => none
      | some b =>
        if b = [] then none
        else if pyStrip b = [] then none else some (pyStrip b)
  let fuzzy_score := fuzzyPart.2
  let match_quality : Str :=
    match fuzzy_score with
    | some s =>
      if s ≥ 90 then "canonical".data
      else if 82 ≤ s ∧ s ≤ 89 then "likely".data
      else "approximate".data
    | none => if fuzzy_term.isSome then "approximate".data else "unknown".data
  let brandParts : List Str :=
    match brand with
    | some b => if b ≠ [] ∧ pyStrip b ≠ [] then [pyStrip b] else []
    | none => []
  let termParts : List Str :=
    match fuzzy_term with
    | some t => [t]
    | none =>
      match title with
      | some t => if t ≠ [] then [pyStrip t] else []
      | none => []
  let parts := brandParts ++ termParts
  let canonical_parts :=
    (parts.foldl
      (fun (acc : List Str × List Str) part =>
        let key := pyLower part
        if key ∈ acc.1 then acc else (acc.1 ++ [key], acc.2 ++ [part]))
      ([], [])).2
  let canonical_query := pyStrip (joinSpace canonical_parts)
  { title := if cleaned_title ≠ [] then cleaned_title else (title.getD [])
    brand :=
      if cleaned_brand ≠ [] then some cleaned_brand
      else
        match brand with
        | some b => if b = [] then none else some b
        | none => none
    canonical_query := canonical_query
    fuzzy_term := fuzzy_term
    fuzzy_score := fuzzy_score
    match_quality := match_quality }

end ListingNormalizer

namespace ValuationEngine

/-- `ValuationEngine.evaluate`, with the two network fetches replaced by
their would-be results (`fetched_sold`, `fetched_active`), since fetching
is I/O.  `has_fetcher` models `self.fetcher` being non-`None`; the branch
structure (fetcher present and canonical query non-empty, `active_limit >
0`) follows the source. -/
def evaluate (has_fetcher : Bool) (active_limit : ℤ) (low_variance_threshold : ℚ)
    (title brand : Option Str) (price : ℚ) (currency : Str)
    (base_search_text : Option Str) (fuzzy_result : Option FuzzyResultDict)
    (fetched_sold fetched_active : List ListingComp) : ValuationResult :=
  let normalization := ListingNormalizer.normalize title brand base_search_text fuzzy_result
  let fetchBranch := has_fetcher = true ∧ normalization.canonical_query ≠ []
  let sold_comps := if fetchBranch then fetched_sold else []
  let sold_summary :=
    if fetchBranch then summarize fetched_sold "eBay sold".data
    else ({ source := "eBay sold".data } : MarketSummary)
  let activeBranch := fetchBranch ∧ active_limit > 0
  let active_listings := if activeBranch then fetched_active else []
  let active_summary :=
    if activeBranch then some (summarize fetched_active "eBay active".data) else none
  let profitTriple := estimate_profit sold_summary price currency
  let confidencePair := score_confidence low_variance_threshold normalization.fuzzy_score sold_summary
  { normalization := normalization
    sold_summary := sold_summary
    active_summary := active_summary
    profit := profitTriple.1
    profit_currency := profitTriple.2.1
    profit_multiple := profitTriple.2.2
    confidence_label := confidencePair.1
    confidence_icon := confidencePair.2
    item_price := price
    item_currency := currency
    sold_comps := sold_comps
    active_listings := active_listings }

end ValuationEngine

/-! ## Theorems -/

/-! ### Generic stripping lemmas -/

theorem head?_dropWhile_false {p : Char → Bool} :
    ∀ (l : Str) {c : Char}, (l.dropWhile p).head? = some c → p c = false := by
  intro l
  induction l with
  | nil => intro c h; simp at h
  | cons x xs ih =>
    intro c h
    rw [List.dropWhile_cons] at h
    split at h
    · exact ih h
    · simp only [List.head?_cons, Option.some.injEq] at h
      subst h
      exact Bool.not_eq_true _ ▸ ‹¬_›

theorem dropWhile_eq_self_of_head {p : Char → Bool} (l : Str)
    (h : ∀ c, l.head? = some c → p c = false) : l.dropWhile p = l := by
  cases l with
  | nil => rfl
  | cons x xs =>
    rw [List.dropWhile_cons, if_neg]
    simp [h x rfl]

theorem getLast?_dropWhile {p : Char → Bool} :
    ∀ (l : Str), l.dropWhile p ≠ [] → (l.dropWhile p).getLast? = l.getLast? := by
  intro l
  induction l with
  | nil => intro h; simp at h
  | cons x xs ih =>
    intro h
    rw [List.dropWhile_cons]
    rw [List.dropWhile_cons] at h
    split at h
    · rw [if_pos ‹_›, ih h, List.getLast?_cons]
      have : xs ≠ [] := by
        intro e
        exact h (by simp [e])
      cases hx : xs.getLast? with
      | none => exact absurd (List.getLast?_eq_none_iff.mp hx) this
      | some d => simp [hx]
    · rw [if_neg ‹_›]

theorem stripBoth_head?_false {p : Char → Bool} (s : Str) {c : Char}
    (h : (stripBoth p s).head? = some c) : p c = false := by
  unfold stripBoth at h
  rw [List.head?_reverse] at h
  have hne : (s.dropWhile p).reverse.dropWhile p ≠ [] := by
    intro e
    rw [e] at h
    simp at h
  rw [getLast?_dropWhile _ hne, ← List.head?_reverse, List.reverse_reverse] at h
  exact head?_dropWhile_false _ h

theorem stripBoth_getLast?_false {p : Char → Bool} (s : Str) {c : Char}
    (h : (stripBoth p s).getLast? = some c) : p c = false := by
  unfold stripBoth at h
  rw [List.getLast?_eq_head?_reverse, List.reverse_reverse] at h
  exact head?_dropWhile_false _ h

theorem stripBoth_eq_self {p : Char → Bool} (s : Str)
    (hh : ∀ c, s.head? = some c → p c = false)
    (hl : ∀ c, s.getLast? = some c → p c = false) : stripBoth p s = s := by
  unfold stripBoth
  rw [dropWhile_eq_self_of_head s hh]
  rw [dropWhile_eq_self_of_head s.reverse
    (fun c hc => hl c (by rwa [List.head?_reverse] at hc))]
  exact List.reverse_reverse s

theorem stripBoth_idem {p : Char → Bool} (s : Str) :
    stripBoth p (stripBoth p s) = stripBoth p s :=
  stripBoth_eq_self _ (fun _ h => stripBoth_head?_false s h)
    (fun _ h => stripBoth_getLast?_false s h)

theorem mem_of_mem_stripBoth {p : Char → Bool} {s : Str} {c : Char}
    (h : c ∈ stripBoth p s) : c ∈ s := by
  unfold stripBoth at h
  rw [List.mem_reverse] at h
  have h2 := (List.dropWhile_sublist (l := (s.dropWhile p).reverse) p).mem h
  rw [List.mem_reverse] at h2
  exact (List.dropWhile_sublist p).mem h2

theorem pyStrip_idem (s : Str) : pyStrip (pyStrip s) = pyStrip s :=
  stripBoth_idem s

theorem mem_of_mem_pyStrip {s : Str} {c : Char} (h : c ∈ pyStrip s) : c ∈ s :=
  mem_of_mem_stripBoth h

theorem mem_of_head?_eq {l : Str} {c : Char} (h : l.head? = some c) : c ∈ l := by
  cases l with
  | nil => simp at h
  | cons x xs =>
    simp only [List.head?_cons, Option.some.injEq] at h
    exact h ▸ List.mem_cons_self _ _

theorem mem_of_getLast?_eq {l : Str} {c : Char} (h : l.getLast? = some c) : c ∈ l := by
  rw [List.getLast?_eq_head?_reverse] at h
  exact List.mem_reverse.mp (mem_of_head?_eq h)

/-! ### Lemmas about the query-name delimiter functions -/

theorem replaceDelim_eq_self : ∀ (s : Str), '|' ∉ s → replaceDelim s = s := by
  intro s
  induction s with
  | nil => intro _; rfl
  | cons c rest ih =>
    intro h
    have hc : c ≠ '|' := fun e => h (e ▸ List.mem_cons_self _ _)
    have hrest : '|' ∉ rest := fun e => h (List.mem_cons_of_mem _ e)
    rw [replaceDelim.eq_def]
    split
    · rename_i heq
      injection heq with h1 _
      exact absurd h1 hc
    · rename_i c' rest' _ heq
      injection heq with h1 h2
      subst h1; subst h2
      rw [ih hrest]
    · rename_i heq
      simp at heq

theorem splitOnceDelim_append (b : Str) :
    ∀ (m : Str), '|' ∉ m → splitOnceDelim (m ++ '|' :: '|' :: b) = some (m, b) := by
  intro m
  induction m with
  | nil => intro _; rfl
  | cons c rest ih =>
    intro h
    have hc : c ≠ '|' := fun e => h (e ▸ List.mem_cons_self _ _)
    have hrest : '|' ∉ rest := fun e => h (List.mem_cons_of_mem _ e)
    rw [splitOnceDelim.eq_def]
    split
    · rename_i heq
      simp at heq
    · rename_i heq
      rw [List.cons_append] at heq
      injection heq with h1 _
      exact absurd h1 hc
    · rename_i c' rest' heq
      rw [List.cons_append] at heq
      injection heq with h1 h2
      subst h1
      rw [← h2, ih hrest]
      rfl

/-- **C6** (counterexample): the round-trip claim fails when the display
name contains a `'|'` character.  At `display = "a|"`, `base = "b"` the
stored value is `"a|||b"`, which decodes to `("a", "|b")`, not to
`("a|", "b")` as the claim requires. -/
theorem encode_decode_counterexample :
    decode_query_name (encode_query_name (some ['a', '|']) (some ['b'])) =
      (some ['a'], some ['|', 'b']) ∧
    decode_query_name (encode_query_name (some ['a', '|']) (some ['b'])) ≠
      (some ['a', '|'], some ['b']) := by decide

/-- **C6** (amended): for every display string and non-blank base string
*containing no `'|'` character*, decoding the encoded value yields the
trimmed display (or, when that is empty, the trimmed base) together with the
trimmed base; and encoding the decoded pair again yields exactly the same
stored value. -/
theorem encode_decode_round_trip (display base : Str)
    (hd : '|' ∉ display) (hb : '|' ∉ base) (hbne : pyStrip base ≠ []) :
    decode_query_name (encode_query_name (some display) (some base)) =
      (some (if pyStrip display = [] then pyStrip base else pyStrip display),
        some (pyStrip base)) ∧
    encode_query_name
        (decode_query_name (encode_query_name (some display) (some base))).1
        (decode_query_name (encode_query_name (some display) (some base))).2 =
      encode_query_name (some display) (some base) := by
  have hd' : '|' ∉ pyStrip display := fun h => hd (mem_of_mem_pyStrip h)
  have hb' : '|' ∉ pyStrip base := fun h => hb (mem_of_mem_pyStrip h)
  have hrd : replaceDelim (pyStrip display) = pyStrip display :=
    replaceDelim_eq_self _ hd'
  have hrb : replaceDelim (pyStrip base) = pyStrip base :=
    replaceDelim_eq_self _ hb'
  set d := pyStrip display with hdDef
  set b := pyStrip base with hbDef
  set combined : Str := if d ≠ [] then d else b with hcombined
  have hcne : combined ≠ [] := by
    rw [hcombined]; split <;> [assumption; assumption]
  have hcnp : '|' ∉ combined := by
    rw [hcombined]; split <;> [exact hd'; exact hb']
  -- the encoded value before/after the edge strip
  have henc : encode_query_name (some display) (some base) =
      some (stripPipes (combined ++ '|' :: '|' :: b)) := by
    simp only [encode_query_name, Option.getD_some, hrd, hrb, ← hdDef, ← hbDef]
    rw [if_pos hbne, ← hcombined]
  have hstrip : stripPipes (combined ++ '|' :: '|' :: b) = combined ++ '|' :: '|' :: b := by
    apply stripBoth_eq_self
    · intro c hc
      rw [List.head?_append] at hc
      cases hcomb : combined.head? with
      | none => exact absurd (List.head?_eq_none_iff.mp hcomb) hcne
      | some c0 =>
        rw [hcomb] at hc
        simp only [Option.or_some, Option.some.injEq] at hc
        subst hc
        have hmem : c0 ∈ combined := mem_of_head?_eq hcomb
        show decide (c0 = '|') = false
        simp only [decide_eq_false_iff_not]
        exact fun h => hcnp (h ▸ hmem)
    · intro c hc
      have : ('|' :: '|' :: b : Str) = ['|', '|'] ++ b := rfl
      rw [List.getLast?_append, this, List.getLast?_append] at hc
      cases hbl : b.getLast? with
      | none => exact absurd (List.getLast?_eq_none_iff.mp hbl) hbne
      | some c0 =>
        rw [hbl] at hc
        simp only [Option.or_some, Option.some.injEq] at hc
        subst hc
        have hmem : c0 ∈ b := mem_of_getLast?_eq hbl
        show decide (c0 = '|') = false
        simp only [decide_eq_false_iff_not]
        exact fun h => hb' (h ▸ hmem)
  have hsplit : splitOnceDelim (combined ++ '|' :: '|' :: b) = some (combined, b) :=
    splitOnceDelim_append b combined hcnp
  have hdec : decode_query_name (encode_query_name (some display) (some base)) =
      (some combined, some b) := by
    rw [henc, hstrip]
    simp only [decode_query_name]
    rw [if_neg (by simp), hsplit]
    have hsc : pyStrip combined = combined := by
      rw [hcombined]; split <;> [exact pyStrip_idem display; exact pyStrip_idem base]
    have hsb : pyStrip b = b := pyStrip_idem base
    simp only [hsc, hsb]
    rw [if_neg hcne, if_neg hbne]
  constructor
  · rw [hdec, hcombined]
    by_cases hde : d = []
    · simp [hde]
    · simp [hde]
  · rw [hdec]
    simp only [encode_query_name, Option.getD_some]
    have hsc : pyStrip combined = combined := by
      rw [hcombined]; split <;> [exact pyStrip_idem display; exact pyStrip_idem base]
    have hsb : pyStrip b = b := pyStrip_idem base
    rw [hsc, hsb, replaceDelim_eq_self _ hcnp, replaceDelim_eq_self _ hb']
    rw [if_pos hcne, if_pos hbne, ← hdDef, hrd, ← hcombined]
    rw [if_pos hbne]

/-- Witness for C6 (amended) at `display = "cd"`, `base = "ab"`. -/
theorem encode_decode_round_trip_witness :
    ('|' ∉ (['c', 'd'] : Str)) ∧ ('|' ∉ (['a', 'b'] : Str)) ∧ pyStrip ['a', 'b'] ≠ [] ∧
    decode_query_name (encode_query_name (some ['c', 'd']) (some ['a', 'b'])) =
      (some (if pyStrip ['c', 'd'] = [] then pyStrip ['a', 'b'] else pyStrip ['c', 'd']),
        some (pyStrip ['a', 'b'])) :=
  ⟨by decide, by decide, by decide,
    (encode_decode_round_trip ['c', 'd'] ['a', 'b'] (by decide) (by decide) (by decide)).1⟩

/-- **C9.** For every requested limit (including zero, negative, and values
above 100), the page size sent to the pricing API (the
`paginationInput.entriesPerPage` request parameter) by both
`fetch_sold_comps` and `fetch_active_listings` lies in the interval
`[1, 100]`. -/
theorem entries_per_page_clamped (app_id query : Str) (limit : ℤ) :
    1 ≤ EbayMarketDataFetcher.sold_entriesPerPage limit ∧
    EbayMarketDataFetcher.sold_entriesPerPage limit ≤ 100 ∧
    1 ≤ EbayMarketDataFetcher.active_entriesPerPage limit ∧
    EbayMarketDataFetcher.active_entriesPerPage limit ≤ 100 ∧
    ("paginationInput.entriesPerPage".data,
      (toString (EbayMarketDataFetcher.sold_entriesPerPage limit)).data) ∈
      EbayMarketDataFetcher.fetch_sold_params app_id query limit ∧
    ("paginationInput.entriesPerPage".data,
      (toString (EbayMarketDataFetcher.active_entriesPerPage limit)).data) ∈
      EbayMarketDataFetcher.fetch_active_params app_id query limit := by
  refine ⟨?_, ?_, ?_, ?_, ?_, ?_⟩ <;>
    simp [EbayMarketDataFetcher.sold_entriesPerPage,
      EbayMarketDataFetcher.active_entriesPerPage,
      EbayMarketDataFetcher.fetch_sold_params,
      EbayMarketDataFetcher.fetch_active_params] <;>
    omega

/-- **C2.** Confidence classification is monotonic in sold sample size at a
fixed fuzzy score: for every fuzzy score ≥ 82, a summary with
`sample_size = 3` is labelled Low and a summary with `sample_size = 4` is
labelled at least Medium; more generally, every summary with
`sample_size < 4` is labelled Low regardless of score. -/
theorem confidence_monotone_in_sample_size
    (t score : ℚ) (s3 s4 : MarketSummary)
    (hscore : 82 ≤ score) (h3 : s3.sample_size = 3) (h4 : s4.sample_size = 4) :
    (ValuationEngine.score_confidence t (some score) s3).1 = "Low".data ∧
    ((ValuationEngine.score_confidence t (some score) s4).1 = "Medium".data ∨
      (ValuationEngine.score_confidence t (some score) s4).1 = "High".data) ∧
    (∀ (s : MarketSummary) (fuzzy : Option ℚ), s.sample_size < 4 →
      (ValuationEngine.score_confidence t fuzzy s).1 = "Low".data) := by
  refine ⟨?_, ?_, ?_⟩
  · simp [ValuationEngine.score_confidence, h3]
  · left
    simp [ValuationEngine.score_confidence, h4]
  · intro s fuzzy h
    simp [ValuationEngine.score_confidence, h]

/-- Witness for C2 at a concrete input: fuzzy score 95, sample sizes 3
and 4. -/
theorem confidence_monotone_in_sample_size_witness :
    (82 : ℚ) ≤ 95 ∧
    (ValuationEngine.score_confidence (35/100) (some 95)
        { sample_size := 3 }).1 = "Low".data ∧
    ((ValuationEngine.score_confidence (35/100) (some 95)
        { sample_size := 4 }).1 = "Medium".data ∨
      (ValuationEngine.score_confidence (35/100) (some 95)
        { sample_size := 4 }).1 = "High".data) ∧
    (∀ (s : MarketSummary) (fuzzy : Option ℚ), s.sample_size < 4 →
      (ValuationEngine.score_confidence (35/100) fuzzy s).1 = "Low".data) :=
  ⟨by norm_num,
    (confidence_monotone_in_sample_size (35/100) 95 { sample_size := 3 }
      { sample_size := 4 } (by norm_num) rfl rfl).1,
    (confidence_monotone_in_sample_size (35/100) 95 { sample_size := 3 }
      { sample_size := 4 } (by norm_num) rfl rfl).2.1,
    (confidence_monotone_in_sample_size (35/100) 95 { sample_size := 3 }
      { sample_size := 4 } (by norm_num) rfl rfl).2.2⟩

/-! ### Lemmas about summarization -/

theorem groupAdd_value_ne_nil {acc : List (JsonVal × List ℚ)} {c : JsonVal} {p : ℚ}
    (h : ∀ g ∈ acc, g.2 ≠ []) :
    ∀ g ∈ ValuationEngine.groupAdd acc c p, g.2 ≠ [] := by
  intro g hg
  unfold ValuationEngine.groupAdd at hg
  split at hg
  · rw [List.mem_map] at hg
    obtain ⟨g0, hg0, he⟩ := hg
    by_cases hc : g0.1 = c
    · rw [if_pos hc] at he
      rw [← he]
      simp
    · rw [if_neg hc] at he
      exact he ▸ h g0 hg0
  · rw [List.mem_append] at hg
    rcases hg with hg | hg
    · exact h g hg
    · simp only [List.mem_singleton] at hg
      rw [hg]
      simp

theorem currencyGroups_value_ne_nil (listings : List ListingComp) :
    ∀ g ∈ ValuationEngine.currencyGroups listings, g.2 ≠ [] := by
  unfold ValuationEngine.currencyGroups
  suffices h : ∀ (acc : List (JsonVal × List ℚ)), (∀ g ∈ acc, g.2 ≠ []) →
      ∀ g ∈ listings.foldl
        (fun groups l =>
          match l.price with
          | none => groups
          | some p =>
            if l.currency = .null then groups else ValuationEngine.groupAdd groups l.currency p)
        acc, g.2 ≠ [] by
    exact h [] (by simp)
  induction listings with
  | nil => intro acc hacc; simpa using hacc
  | cons l ls ih =>
    intro acc hacc
    rw [List.foldl_cons]
    apply ih
    cases hp : l.price with
    | none => simpa using hacc
    | some p =>
      simp only
      split
      · exact hacc
      · exact groupAdd_value_ne_nil hacc

theorem maxGroup_mem : ∀ (gs : List (JsonVal × List ℚ)) (g : JsonVal × List ℚ),
    ValuationEngine.maxGroup g gs ∈ g :: gs := by
  intro gs
  induction gs with
  | nil => intro g; simp [ValuationEngine.maxGroup]
  | cons h t ih =>
    intro g
    unfold ValuationEngine.maxGroup
    rw [List.foldl_cons]
    have := ih (if h.2.length > g.2.length then h else g)
    unfold ValuationEngine.maxGroup at this
    rcases List.mem_cons.mp this with he | ht
    · rw [he]
      split
      · exact List.mem_cons_of_mem _ (List.mem_cons_self _ _)
      · exact List.mem_cons_self _ _
    · exact List.mem_cons_of_mem _ (List.mem_cons_of_mem _ ht)

theorem mergeSort_ne_nil {l : List ℚ} {le : ℚ → ℚ → Bool} (h : l ≠ []) :
    l.mergeSort le ≠ [] := by
  intro e
  apply h
  have := (List.mergeSort_perm l le).length_eq
  rw [e] at this
  exact List.length_eq_zero.mp this.symm

/-- Every summary produced by `_summarize` is either the zero-sample default
or has a non-empty sorted price list with all aggregate fields defined. -/
theorem summarize_spec (listings : List ListingComp) (src : Str) :
    ValuationEngine.summarize listings src = { source := src } ∨
    (∃ (sorted : List ℚ) (c : JsonVal), sorted ≠ [] ∧
      ValuationEngine.summarize listings src =
        { minimum := some (pyMin sorted), maximum := some (pyMax sorted),
          median := some (pyMedian sorted), currency := c,
          sample_size := sorted.length, source := src, prices := sorted }) := by
  unfold ValuationEngine.summarize
  by_cases h : listings.isEmpty
  · left; rw [if_pos h]
  · rw [if_neg h]
    cases hg : ValuationEngine.currencyGroups listings with
    | nil => left; rfl
    | cons g gs =>
      right
      refine ⟨(ValuationEngine.maxGroup g gs).2.mergeSort (fun a b => decide (a ≤ b)),
        (ValuationEngine.maxGroup g gs).1, ?_, rfl⟩
      apply mergeSort_ne_nil
      apply currencyGroups_value_ne_nil listings
      rw [hg]
      exact maxGroup_mem gs g

/-- **C1** (counterexample): the claim's "profit is none exactly when …
the sold summary's currency differs from the item's currency" fails when the
sold currency is the *empty string*: it differs from `"EUR"`, yet the
truthiness guard `if summary.currency and …` skips the mismatch check and a
profit is computed.  One sold comp priced 10 with currency `""` against an
item priced 4 in EUR yields `profit = some 6`, not `none`. -/
theorem estimate_profit_counterexample :
    (ValuationEngine.summarize
        [⟨.str "t".data, some 10, .str [], .null, .null, "eBay sold".data⟩]
        "eBay sold".data).sample_size ≠ 0 ∧
    (ValuationEngine.summarize
        [⟨.str "t".data, some 10, .str [], .null, .null, "eBay sold".data⟩]
        "eBay sold".data).currency ≠ .str "EUR".data ∧
    (ValuationEngine.estimate_profit
        (ValuationEngine.summarize
          [⟨.str "t".data, some 10, .str [], .null, .null, "eBay sold".data⟩]
          "eBay sold".data)
        4 "EUR".data).1 = some 6 := by
  have hs : ValuationEngine.summarize
      [⟨.str "t".data, some 10, .str [], .null, .null, "eBay sold".data⟩]
      "eBay sold".data =
      { minimum := some 10, maximum := some 10, median := some 10,
        currency := .str [], sample_size := 1, source := "eBay sold".data,
        prices := [10] } := by
    simp [ValuationEngine.summarize, ValuationEngine.currencyGroups,
      ValuationEngine.groupAdd, ValuationEngine.maxGroup, pyMin, pyMax, pyMedian]
  refine ⟨by rw [hs]; simp, by rw [hs]; simp, ?_⟩
  rw [hs]
  simp [ValuationEngine.estimate_profit, pyTruthy]
  norm_num

/-- **C1** (amended).  For every sold-market summary produced by
`_summarize`: the profit estimate is `none` exactly when the sold
`sample_size == 0` or the sold summary's currency is *truthy (non-empty)*
and differs from the item's currency; otherwise profit equals
`median(sold prices) − item_price` exactly, and the profit multiple equals
`median / item_price` when `item_price > 0` and is undefined otherwise. -/
theorem estimate_profit_spec (listings : List ListingComp) (item_price : ℚ)
    (item_currency : Str) :
    let s := ValuationEngine.summarize listings "eBay sold".data
    let r := ValuationEngine.estimate_profit s item_price item_currency
    (r.1 = none ↔
      (s.sample_size = 0 ∨
        (pyTruthy s.currency = true ∧ s.currency ≠ .str item_currency))) ∧
    (s.sample_size ≠ 0 →
      (pyTruthy s.currency = false ∨ s.currency = .str item_currency) →
      r.1 = some (pyMedian s.prices - item_price) ∧
      r.2.2 = (if 0 < item_price then some (pyMedian s.prices / item_price) else none)) := by
  intro s r
  rcases summarize_spec listings "eBay sold".data with hdef | ⟨sorted, c, hne, heq⟩
  · have hs : s = { source := "eBay sold".data } := hdef
    constructor
    · rw [show r = ValuationEngine.estimate_profit s item_price item_currency from rfl, hs]
      simp [ValuationEngine.estimate_profit]
    · intro h0 _
      exact absurd (by rw [hs]) h0
  · have hs : s =
        { minimum := some (pyMin sorted), maximum := some (pyMax sorted),
          median := some (pyMedian sorted), currency := c,
          sample_size := sorted.length, source := "eBay sold".data,
          prices := sorted } := heq
    have hlen : sorted.length ≠ 0 := fun e => hne (List.length_eq_zero.mp e)
    constructor
    · rw [show r = ValuationEngine.estimate_profit s item_price item_currency from rfl, hs]
      simp only [ValuationEngine.estimate_profit, hlen, if_neg hlen]
      by_cases hmis : pyTruthy c = true ∧ c ≠ .str item_currency
      · rw [if_pos hmis]
        exact ⟨fun _ => Or.inr hmis, fun _ => rfl⟩
      · rw [if_neg hmis]
        constructor
        · intro h; exact absurd h (by simp)
        · intro h
          rcases h with h | h
          · exact h.elim
          · exact absurd h hmis
    · intro _ hok
      rw [show r = ValuationEngine.estimate_profit s item_price item_currency from rfl, hs]
      have hmis : ¬(pyTruthy c = true ∧ c ≠ .str item_currency) := by
        rcases hok with h | h
        · intro ⟨h1, _⟩
          rw [hs] at h
          simp only [MarketSummary.currency] at h
          rw [h] at h1
          exact Bool.false_ne_true h1
        · intro ⟨_, h2⟩
          rw [hs] at h
          exact h2 h
      simp only [ValuationEngine.estimate_profit, if_neg hlen, if_neg hmis]
      constructor <;> simp

/-- Witness for C1 (amended) at one EUR comp priced 40 against an item
priced 25 EUR: profit is defined and equals `median − 25 = 15`. -/
theorem estimate_profit_spec_witness :
    let s := ValuationEngine.summarize
      [⟨.str "t".data, some 40, .str "EUR".data, .null, .null, "eBay sold".data⟩]
      "eBay sold".data
    let r := ValuationEngine.estimate_profit s 25 "EUR".data
    (s.sample_size ≠ 0 ∧ s.currency = .str "EUR".data) ∧
    (r.1 = some (pyMedian s.prices - 25) ∧
      r.2.2 = (if (0:ℚ) < 25 then some (pyMedian s.prices / 25) else none)) := by
  have hs : ValuationEngine.summarize
      [⟨.str "t".data, some 40, .str "EUR".data, .null, .null, "eBay sold".data⟩]
      "eBay sold".data =
      { minimum := some 40, maximum := some 40, median := some 40,
        currency := .str "EUR".data, sample_size := 1, source := "eBay sold".data,
        prices := [40] } := by
    simp [ValuationEngine.summarize, ValuationEngine.currencyGroups,
      ValuationEngine.groupAdd, ValuationEngine.maxGroup, pyMin, pyMax, pyMedian]
  refine ⟨⟨by rw [hs]; simp, by rw [hs]⟩, ?_⟩
  exact (estimate_profit_spec
    [⟨.str "t".data, some 40, .str "EUR".data, .null, .null, "eBay sold".data⟩]
    25 "EUR".data).2 (by rw [hs]; simp) (Or.inr (by rw [hs]))

/-! ### Character-level lemmas for the text normalizer -/

theorem lookup_mem {β : Type} :
    ∀ (l : List (Char × β)) {k : Char} {v : β}, l.lookup k = some v → (k, v) ∈ l := by
  intro l
  induction l with
  | nil => intro k v h; simp [List.lookup] at h
  | cons p rest ih =>
    intro k v h
    obtain ⟨a, b⟩ := p
    by_cases he : k = a
    · subst he
      simp [List.lookup] at h
      rw [h]
      exact List.mem_cons_self _ _
    · simp only [List.lookup, beq_false_of_ne he] at h
      exact List.mem_cons_of_mem _ (ih h)

theorem lookup_cases {β : Type} (l : List (Char × β)) (k : Char) :
    l.lookup k = none ∨ ∃ v, l.lookup k = some v ∧ (k, v) ∈ l := by
  cases h : l.lookup k with
  | none => exact Or.inl rfl
  | some v => exact Or.inr ⟨v, rfl, lookup_mem l h⟩

theorem pyIsSpace_cases {c : Char} (h : pyIsSpace c = true) :
    c = ' ' ∨ c = '\t' ∨ c = '\n' ∨ c = '\r' ∨ c = '\x0b' ∨ c = '\x0c' := by
  have h' := h
  simp only [pyIsSpace, Bool.or_eq_true, decide_eq_true_iff] at h'
  tauto

theorem uniChar_ascii {c : Char} (h : c.toNat < 128) : unidecodeChar c = [c] := by
  simp [unidecodeChar, h]

theorem uniChar_out_ascii : ∀ {c c' : Char}, c' ∈ unidecodeChar c → c'.toNat < 128 := by
  intro c c' h
  unfold unidecodeChar at h
  split at h
  · rename_i hc
    simp only [List.mem_singleton] at h
    exact h ▸ hc
  · rcases lookup_cases unidecodePairs c with hl | ⟨v, hl, hm⟩
    · rw [hl] at h
      simp at h
    · rw [hl] at h
      simp only [Option.getD_some] at h
      have hall : unidecodePairs.all
          (fun p => p.2.all (fun d => decide (d.toNat < 128))) = true := by decide
      have := (List.all_eq_true.mp ((List.all_eq_true.mp hall) _ hm)) c' h
      exact decide_eq_true_eq.mp this

theorem space_char_props {c : Char} (h : pyIsSpace c = true) :
    c.toNat < 128 ∧ isPunctSep c = false ∧ pyLowerChar c = c := by
  rcases pyIsSpace_cases h with hc | hc | hc | hc | hc | hc <;> subst hc <;>
    exact ⟨by decide, by decide, by decide⟩

theorem asciiLower_keys_ascii :
    ∀ p ∈ asciiLowerPairs, p.1.toNat < 128 := by decide

theorem extraLower_keys_not_ascii :
    ∀ p ∈ extraLowerPairs, 128 ≤ p.1.toNat := by decide

theorem asciiLower_value_props :
    ∀ p ∈ asciiLowerPairs, p.2.toNat < 128 ∧ pyLowerChar p.2 = p.2 ∧
      isPunctSep p.2 = isPunctSep p.1 ∧ pyIsSpace p.2 = pyIsSpace p.1 := by decide

theorem pyLowerChar_ascii_props {c : Char} (h : c.toNat < 128) :
    (pyLowerChar c).toNat < 128 ∧ pyLowerChar (pyLowerChar c) = pyLowerChar c ∧
      isPunctSep (pyLowerChar c) = isPunctSep c ∧
      pyIsSpace (pyLowerChar c) = pyIsSpace c := by
  rcases lookup_cases (asciiLowerPairs ++ extraLowerPairs) c with hl | ⟨v, hl, hm⟩
  · have hv : pyLowerChar c = c := by unfold pyLowerChar; rw [hl]; rfl
    refine ⟨by rw [hv]; exact h, by rw [hv, hv], by rw [hv], by rw [hv]⟩
  · have hv : pyLowerChar c = v := by unfold pyLowerChar; rw [hl]; rfl
    rcases List.mem_append.mp hm with hma | hme
    · obtain ⟨h1, h2, h3, h4⟩ := asciiLower_value_props _ hma
      rw [hv]
      exact ⟨h1, by rw [h2], h3, h4⟩
    · exact absurd h (by simpa using Nat.not_lt.mpr (extraLower_keys_not_ascii _ hme))

theorem asciiLower_g_coherent :
    ∀ p ∈ asciiLowerPairs,
      pyLowerChar (if isPunctSep p.2 then ' ' else p.2) =
        pyLowerChar (if isPunctSep p.1 then ' ' else p.1) := by decide

theorem extraLower_g_coherent :
    ∀ p ∈ extraLowerPairs,
      (unidecodeChar p.2).map (fun d => pyLowerChar (if isPunctSep d then ' ' else d)) =
        (unidecodeChar p.1).map (fun d => pyLowerChar (if isPunctSep d then ' ' else d)) := by
  decide

/-- Transliterate-then-clean commutes with Python lower-casing, character by
character: the cleaned form of `c.lower()` equals the cleaned form of `c`. -/
theorem gchar_lower_coherent (c : Char) :
    (unidecodeChar (pyLowerChar c)).map
        (fun d => pyLowerChar (if isPunctSep d then ' ' else d)) =
      (unidecodeChar c).map
        (fun d => pyLowerChar (if isPunctSep d then ' ' else d)) := by
  rcases lookup_cases (asciiLowerPairs ++ extraLowerPairs) c with hl | ⟨v, hl, hm⟩
  · have hv : pyLowerChar c = c := by unfold pyLowerChar; rw [hl]; rfl
    rw [hv]
  · have hv : pyLowerChar c = v := by unfold pyLowerChar; rw [hl]; rfl
    rw [hv]
    rcases List.mem_append.mp hm with hma | hme
    · have hkey : c.toNat < 128 := asciiLower_keys_ascii _ hma
      obtain ⟨hval, _, _, _⟩ := asciiLower_value_props _ hma
      rw [uniChar_ascii hkey, uniChar_ascii hval]
      simp only [List.map_cons, List.map_nil]
      rw [asciiLower_g_coherent _ hma]
    · exact extraLower_g_coherent _ hme

theorem normalChar_spec {c : Char} (h : normalChar c = true) :
    unidecodeChar c = [c] ∧ pyLowerChar c = c ∧ isPunctSep c = false ∧
      pyIsSpace c = false := by
  simp only [normalChar, Bool.and_eq_true, Bool.not_eq_true', decide_eq_true_eq] at h
  exact ⟨h.1.1.1, h.1.1.2, h.1.2, h.2⟩

theorem gchar_normal {c : Char} (h : normalChar c = true) :
    pyLowerChar (if isPunctSep c then ' ' else c) = c := by
  obtain ⟨_, h2, h3, _⟩ := normalChar_spec h
  rw [h3]
  simpa using h2

theorem gchar_space {c : Char} (h : pyIsSpace c = true) :
    pyLowerChar (if isPunctSep c then ' ' else c) = c := by
  obtain ⟨_, h2, h3⟩ := space_char_props h
  rw [h2]
  simpa using h3

/-- Cleaning an ASCII character yields whitespace or a normal character. -/
theorem gchar_ascii_normal_or_space {c : Char} (h : c.toNat < 128) :
    pyIsSpace (pyLowerChar (if isPunctSep c then ' ' else c)) = true ∨
      normalChar (pyLowerChar (if isPunctSep c then ' ' else c)) = true := by
  by_cases hp : isPunctSep c = true
  · rw [if_pos hp]
    left
    decide
  · rw [if_neg (by simpa using hp)]
    obtain ⟨h1, h2, h3, h4⟩ := pyLowerChar_ascii_props h
    by_cases hs : pyIsSpace c = true
    · left
      rw [h4, hs]
    · right
      simp only [normalChar, Bool.and_eq_true, Bool.not_eq_true', decide_eq_true_eq]
      refine ⟨⟨⟨uniChar_ascii h1, h2⟩, ?_⟩, ?_⟩
      · rw [h3]; simpa using hp
      · rw [h4]; simpa using hs

/-! ### Lemmas about word splitting and joining -/

theorem wordsAux_ne_nil (s : Str) : wordsAux s ≠ [] := by
  cases s with
  | nil => simp [wordsAux]
  | cons c rest =>
    simp only [wordsAux]
    split <;> simp

theorem wordsAux_chars : ∀ (s : Str), ∀ w ∈ wordsAux s, ∀ c ∈ w,
    c ∈ s ∧ pyIsSpace c = false := by
  intro s
  induction s with
  | nil =>
    intro w hw c hc
    simp only [wordsAux, List.mem_singleton] at hw
    simp [hw] at hc
  | cons a rest ih =>
    intro w hw c hc
    simp only [wordsAux] at hw
    by_cases ha : pyIsSpace a = true
    · rw [if_pos ha] at hw
      rcases List.mem_cons.mp hw with he | hm
      · simp [he] at hc
      · obtain ⟨h1, h2⟩ := ih w hm c hc
        exact ⟨List.mem_cons_of_mem _ h1, h2⟩
    · rw [if_neg ha] at hw
      rcases List.mem_cons.mp hw with he | hm
      · subst he
        rcases List.mem_cons.mp hc with he2 | hm2
        · subst he2
          exact ⟨List.mem_cons_self _ _, by simpa using ha⟩
        · have hh : (wordsAux rest).headD [] ∈ wordsAux rest := by
            cases h : wordsAux rest with
            | nil => exact absurd h (wordsAux_ne_nil rest)
            | cons x xs => simp
          obtain ⟨h1, h2⟩ := ih _ hh c hm2
          exact ⟨List.mem_cons_of_mem _ h1, h2⟩
      · obtain ⟨h1, h2⟩ := ih w ((List.tail_sublist _).mem hm) c hc
        exact ⟨List.mem_cons_of_mem _ h1, h2⟩

theorem splitWords_chars {s w : Str} (hw : w ∈ splitWords s) :
    w ≠ [] ∧ ∀ c ∈ w, c ∈ s ∧ pyIsSpace c = false := by
  unfold splitWords at hw
  obtain ⟨hm, hne⟩ := List.mem_filter.mp hw
  exact ⟨by simpa using hne, fun c hc => wordsAux_chars s w hm c hc⟩

theorem wordsAux_space_cons {a : Char} (ha : pyIsSpace a = true) (l : Str) :
    wordsAux (a :: l) = [] :: wordsAux l := by
  simp [wordsAux, ha]

theorem wordsAux_cons_nospace {a : Char} (ha : pyIsSpace a = false) (l : Str) :
    wordsAux (a :: l) = (a :: (wordsAux l).headD []) :: (wordsAux l).tail := by
  simp [wordsAux, ha]

theorem splitWords_space_cons {a : Char} (ha : pyIsSpace a = true) (l : Str) :
    splitWords (a :: l) = splitWords l := by
  unfold splitWords
  rw [wordsAux_space_cons ha]
  simp

theorem wordsAux_word_append (w l : Str) (hw : ∀ c ∈ w, pyIsSpace c = false) :
    wordsAux (w ++ l) = (w ++ (wordsAux l).headD []) :: (wordsAux l).tail := by
  induction w with
  | nil =>
    simp only [List.nil_append]
    cases h : wordsAux l with
    | nil => exact absurd h (wordsAux_ne_nil l)
    | cons x xs => simp
  | cons a w2 ih =>
    have ha : pyIsSpace a = false := hw a (List.mem_cons_self _ _)
    rw [List.cons_append, wordsAux_cons_nospace ha,
      ih (fun c hc => hw c (List.mem_cons_of_mem _ hc))]
    simp

theorem splitWords_joinSpace : ∀ (ws : List Str),
    (∀ w ∈ ws, w ≠ [] ∧ ∀ c ∈ w, pyIsSpace c = false) →
    splitWords (joinSpace ws) = ws := by
  intro ws
  induction ws with
  | nil => intro _; decide
  | cons w rest ih =>
    intro h
    obtain ⟨hwne, hwc⟩ := h w (List.mem_cons_self _ _)
    cases rest with
    | nil =>
      have hj : joinSpace [w] = w := rfl
      rw [hj]
      have h2 : wordsAux w = [w] := by
        have h3 := wordsAux_word_append w [] hwc
        simpa [wordsAux] using h3
      unfold splitWords
      rw [h2]
      simp [hwne]
    | cons w2 r2 =>
      have hj : joinSpace (w :: w2 :: r2) = w ++ ' ' :: joinSpace (w2 :: r2) := rfl
      rw [hj]
      have h2 := wordsAux_word_append w (' ' :: joinSpace (w2 :: r2)) hwc
      rw [wordsAux_space_cons (by decide)] at h2
      simp only [List.headD_cons, List.tail_cons, List.append_nil] at h2
      have h3 : splitWords (joinSpace (w2 :: r2)) = w2 :: r2 :=
        ih (fun x hx => h x (List.mem_cons_of_mem _ hx))
      unfold splitWords at h3 ⊢
      rw [h2, List.filter_cons, if_pos (by simpa using hwne), h3]

theorem wordsAux_headD (s : Str) :
    (wordsAux s).headD [] = s.takeWhile (fun c => !pyIsSpace c) := by
  induction s with
  | nil => rfl
  | cons a rest ih =>
    by_cases ha : pyIsSpace a = true
    · rw [wordsAux_space_cons ha, List.takeWhile_cons]
      simp [ha]
    · have ha2 : pyIsSpace a = false := by simpa using ha
      rw [wordsAux_cons_nospace ha2, List.takeWhile_cons]
      have hb : (!pyIsSpace a) = true := by simp [ha2]
      rw [hb, if_pos rfl]
      simp only [List.headD_cons]
      rw [ih]

theorem wordsAux_tail_filter (s : Str) :
    ((wordsAux s).tail).filter (fun w => w ≠ []) =
      splitWords (s.dropWhile (fun c => !pyIsSpace c)) := by
  induction s with
  | nil => rfl
  | cons a rest ih =>
    by_cases ha : pyIsSpace a = true
    · rw [wordsAux_space_cons ha]
      simp only [List.tail_cons]
      have hd : (a :: rest).dropWhile (fun c => !pyIsSpace c) = a :: rest := by
        rw [List.dropWhile_cons]
        simp [ha]
      rw [hd, splitWords_space_cons ha]
      rfl
    · have ha2 : pyIsSpace a = false := by simpa using ha
      rw [wordsAux_cons_nospace ha2]
      simp only [List.tail_cons]
      have hd : (a :: rest).dropWhile (fun c => !pyIsSpace c) =
          rest.dropWhile (fun c => !pyIsSpace c) := by
        rw [List.dropWhile_cons]
        simp [ha2]
      rw [hd, ← ih]

theorem splitWords_eq (s : Str) :
    splitWords s =
      (if s.takeWhile (fun c => !pyIsSpace c) = [] then []
        else [s.takeWhile (fun c => !pyIsSpace c)]) ++
      splitWords (s.dropWhile (fun c => !pyIsSpace c)) := by
  conv_lhs => unfold splitWords
  cases h : wordsAux s with
  | nil => exact absurd h (wordsAux_ne_nil s)
  | cons x xs =>
    have hx : x = s.takeWhile (fun c => !pyIsSpace c) := by
      have h2 := wordsAux_headD s
      rw [h] at h2
      simpa using h2
    have hxs : xs.filter (fun w => w ≠ []) =
        splitWords (s.dropWhile (fun c => !pyIsSpace c)) := by
      have h2 := wordsAux_tail_filter s
      rw [h] at h2
      simpa using h2
    rw [List.filter_cons, hxs, hx]
    by_cases he : s.takeWhile (fun c => !pyIsSpace c) = []
    · simp [he]
    · simp [he]

theorem splitWords_all_space : ∀ (s : Str), (∀ c ∈ s, pyIsSpace c = true) →
    splitWords s = [] := by
  intro s
  induction s with
  | nil => intro _; decide
  | cons a rest ih =>
    intro h
    rw [splitWords_space_cons (h a (List.mem_cons_self _ _))]
    exact ih (fun c hc => h c (List.mem_cons_of_mem _ hc))

theorem splitWords_space_pre : ∀ (pre : Str), (∀ c ∈ pre, pyIsSpace c = true) →
    ∀ (l : Str), splitWords (pre ++ l) = splitWords l := by
  intro pre
  induction pre with
  | nil => intro _ l; rfl
  | cons a p ih =>
    intro h l
    rw [List.cons_append, splitWords_space_cons (h a (List.mem_cons_self _ _))]
    exact ih (fun c hc => h c (List.mem_cons_of_mem _ hc)) l

theorem takeWhile_nospace_append (suf : Str) (hsuf : ∀ c ∈ suf, pyIsSpace c = true) :
    ∀ (s : Str), (s ++ suf).takeWhile (fun c => !pyIsSpace c) =
      s.takeWhile (fun c => !pyIsSpace c) := by
  intro s
  induction s with
  | nil =>
    simp only [List.nil_append, List.takeWhile_nil]
    cases suf with
    | nil => rfl
    | cons a rest =>
      rw [List.takeWhile_cons]
      simp [hsuf a (List.mem_cons_self _ _)]
  | cons a s2 ih =>
    rw [List.cons_append, List.takeWhile_cons, List.takeWhile_cons]
    cases hb : (!pyIsSpace a) <;> simp [hb, ih]

theorem dropWhile_nospace_append (suf : Str) (hsuf : ∀ c ∈ suf, pyIsSpace c = true) :
    ∀ (s : Str), (s ++ suf).dropWhile (fun c => !pyIsSpace c) =
      s.dropWhile (fun c => !pyIsSpace c) ++ suf := by
  intro s
  induction s with
  | nil =>
    simp only [List.nil_append, List.dropWhile_nil]
    cases suf with
    | nil => rfl
    | cons a rest =>
      rw [List.dropWhile_cons]
      simp [hsuf a (List.mem_cons_self _ _)]
  | cons a s2 ih =>
    rw [List.cons_append, List.dropWhile_cons, List.dropWhile_cons]
    cases hb : (!pyIsSpace a) <;> simp [hb, ih]

theorem length_dropWhile_le {p : Char → Bool} : ∀ (l : Str),
    (l.dropWhile p).length ≤ l.length := by
  intro l
  induction l with
  | nil => simp
  | cons a t ih =>
    rw [List.dropWhile_cons]
    split
    · exact Nat.le_trans ih (Nat.le_succ _)
    · simp

theorem splitWords_space_suffix_aux (suf : Str)
    (hsuf : ∀ c ∈ suf, pyIsSpace c = true) :
    ∀ (n : Nat) (s : Str), s.length ≤ n → splitWords (s ++ suf) = splitWords s := by
  intro n
  induction n with
  | zero =>
    intro s hs
    have he : s = [] := List.eq_nil_of_length_eq_zero (Nat.le_zero.mp hs)
    subst he
    simpa using splitWords_all_space suf hsuf
  | succ n ih =>
    intro s hs
    cases s with
    | nil => simpa using splitWords_all_space suf hsuf
    | cons a s2 =>
      have hlen : s2.length ≤ n := Nat.le_of_succ_le_succ (by simpa using hs)
      by_cases ha : pyIsSpace a = true
      · rw [List.cons_append, splitWords_space_cons ha, splitWords_space_cons ha]
        exact ih s2 hlen
      · have ha2 : pyIsSpace a = false := by simpa using ha
        rw [splitWords_eq ((a :: s2) ++ suf), splitWords_eq (a :: s2),
          takeWhile_nospace_append suf hsuf, dropWhile_nospace_append suf hsuf]
        congr 1
        have hd : (a :: s2).dropWhile (fun c => !pyIsSpace c) =
            s2.dropWhile (fun c => !pyIsSpace c) := by
          rw [List.dropWhile_cons]
          simp [ha2]
        rw [hd]
        exact ih _ (Nat.le_trans (length_dropWhile_le s2) hlen)

theorem splitWords_space_suffix (s suf : Str)
    (hsuf : ∀ c ∈ suf, pyIsSpace c = true) :
    splitWords (s ++ suf) = splitWords s :=
  splitWords_space_suffix_aux suf hsuf s.length s (Nat.le_refl _)

theorem joinSpace_chars : ∀ (ws : List Str) (c : Char), c ∈ joinSpace ws →
    c = ' ' ∨ ∃ w ∈ ws, c ∈ w := by
  intro ws
  induction ws with
  | nil => intro c hc; simp [joinSpace] at hc
  | cons w rest ih =>
    intro c hc
    cases rest with
    | nil =>
      have hj : joinSpace [w] = w := rfl
      rw [hj] at hc
      exact Or.inr ⟨w, List.mem_cons_self _ _, hc⟩
    | cons w2 r2 =>
      have hj : joinSpace (w :: w2 :: r2) = w ++ ' ' :: joinSpace (w2 :: r2) := rfl
      rw [hj] at hc
      rcases List.mem_append.mp hc with h1 | h2
      · exact Or.inr ⟨w, List.mem_cons_self _ _, h1⟩
      · rcases List.mem_cons.mp h2 with he | hm
        · exact Or.inl he
        · rcases ih c hm with h3 | ⟨w3, hw3, hc3⟩
          · exact Or.inl h3
          · exact Or.inr ⟨w3, List.mem_cons_of_mem _ hw3, hc3⟩

theorem joinSpace_head? (ws : List Str) (h : ∀ w ∈ ws, w ≠ []) {c : Char}
    (hc : (joinSpace ws).head? = some c) : ∃ w ∈ ws, c ∈ w := by
  cases ws with
  | nil => simp [joinSpace] at hc
  | cons w rest =>
    have hw := h w (List.mem_cons_self _ _)
    cases hwc : w with
    | nil => exact absurd hwc hw
    | cons a t =>
      cases rest with
      | nil =>
        have hj : joinSpace [w] = w := rfl
        rw [hj, hwc] at hc
        simp only [List.head?_cons, Option.some.injEq] at hc
        refine ⟨a :: t, List.mem_cons_self _ _, ?_⟩
        rw [← hc]
        exact List.mem_cons_self _ _
      | cons w2 r2 =>
        have hj : joinSpace (w :: w2 :: r2) = w ++ ' ' :: joinSpace (w2 :: r2) := rfl
        rw [hj, hwc] at hc
        simp only [List.cons_append, List.head?_cons, Option.some.injEq] at hc
        refine ⟨a :: t, List.mem_cons_self _ _, ?_⟩
        rw [← hc]
        exact List.mem_cons_self _ _

theorem getLast?_append_right {l l2 : Str} (h : l2 ≠ []) :
    (l ++ l2).getLast? = l2.getLast? := by
  rw [List.getLast?_append]
  cases hgl : l2.getLast? with
  | none =>
    rw [List.getLast?_eq_head?_reverse] at hgl
    have hrev : l2.reverse = [] := by
      cases hr : l2.reverse with
      | nil => rfl
      | cons x xs => rw [hr] at hgl; simp at hgl
    exact absurd (by simpa using hrev) h
  | some d => rfl

theorem joinSpace_ne_nil {ws : List Str} (h : ∀ w ∈ ws, w ≠ []) (hne : ws ≠ []) :
    joinSpace ws ≠ [] := by
  cases ws with
  | nil => exact absurd rfl hne
  | cons w rest =>
    have hw := h w (List.mem_cons_self _ _)
    cases rest with
    | nil => exact hw
    | cons w2 r2 =>
      have hj : joinSpace (w :: w2 :: r2) = w ++ ' ' :: joinSpace (w2 :: r2) := rfl
      rw [hj]
      simp

theorem joinSpace_getLast? : ∀ (ws : List Str), (∀ w ∈ ws, w ≠ []) → ∀ {c : Char},
    (joinSpace ws).getLast? = some c → ∃ w ∈ ws, c ∈ w := by
  intro ws
  induction ws with
  | nil => intro _ c hc; simp [joinSpace] at hc
  | cons w rest ih =>
    intro h c hc
    cases rest with
    | nil =>
      have hj : joinSpace [w] = w := rfl
      rw [hj] at hc
      exact ⟨w, List.mem_cons_self _ _, mem_of_getLast?_eq hc⟩
    | cons w2 r2 =>
      have hrest : ∀ x ∈ w2 :: r2, x ≠ [] := fun x hx => h x (List.mem_cons_of_mem _ hx)
      have hjne : joinSpace (w2 :: r2) ≠ [] := joinSpace_ne_nil hrest (by simp)
      have hj : joinSpace (w :: w2 :: r2) = (w ++ [' ']) ++ joinSpace (w2 :: r2) := by
        have hj0 : joinSpace (w :: w2 :: r2) = w ++ ' ' :: joinSpace (w2 :: r2) := rfl
        rw [hj0]
        simp
      rw [hj, getLast?_append_right hjne] at hc
      obtain ⟨w3, hw3, hc3⟩ := ih hrest hc
      exact ⟨w3, List.mem_cons_of_mem _ hw3, hc3⟩

theorem pyStrip_joinSpace (ws : List Str)
    (h : ∀ w ∈ ws, w ≠ [] ∧ ∀ c ∈ w, pyIsSpace c = false) :
    pyStrip (joinSpace ws) = joinSpace ws := by
  apply stripBoth_eq_self
  · intro c hc
    obtain ⟨w, hw, hcw⟩ := joinSpace_head? ws (fun w hw => (h w hw).1) hc
    exact (h w hw).2 c hcw
  · intro c hc
    obtain ⟨w, hw, hcw⟩ := joinSpace_getLast? ws (fun w hw => (h w hw).1) hc
    exact (h w hw).2 c hcw

/-! ### Stage invariance of the text normalizer -/

theorem flatMap_congr {f g : Char → Str} : ∀ (l : Str), (∀ c ∈ l, f c = g c) →
    l.flatMap f = l.flatMap g := by
  intro l
  induction l with
  | nil => intro _; rfl
  | cons a t ih =>
    intro h
    rw [List.flatMap_cons, List.flatMap_cons, h a (List.mem_cons_self _ _),
      ih (fun c hc => h c (List.mem_cons_of_mem _ hc))]

theorem flatMap_id_of_singleton {f : Char → Str} : ∀ (l : Str), (∀ c ∈ l, f c = [c]) →
    l.flatMap f = l := by
  intro l
  induction l with
  | nil => intro _; rfl
  | cons a t ih =>
    intro h
    rw [List.flatMap_cons, h a (List.mem_cons_self _ _),
      ih (fun c hc => h c (List.mem_cons_of_mem _ hc)), List.singleton_append]

theorem gchar_space2 {c : Char} (h : pyIsSpace c = true) : gchar c = c := gchar_space h

theorem gchar_normal2 {c : Char} (h : normalChar c = true) : gchar c = c := gchar_normal h

theorem gchar_lower2 (c : Char) :
    (unidecodeChar (pyLowerChar c)).map gchar = (unidecodeChar c).map gchar :=
  gchar_lower_coherent c

theorem gchar_ascii2 {c : Char} (h : c.toNat < 128) :
    pyIsSpace (gchar c) = true ∨ normalChar (gchar c) = true :=
  gchar_ascii_normal_or_space h

theorem normStr_eq_gStr (s : Str) : normStr s = joinSpace (splitWords (gStr s)) := by
  have hred : normStr s = if s = [] then [] else
      joinSpace (splitWords
        (pyLower ((unidecodeStr s).map (fun c => if isPunctSep c then ' ' else c)))) := rfl
  rw [hred]
  by_cases hs : s = []
  · subst hs
    rw [if_pos rfl]
    decide
  · rw [if_neg hs]
    congr 2
    unfold pyLower gStr
    rw [List.map_map]
    rfl

theorem strip_decomp (p : Char → Bool) (s : Str) :
    ∃ pre suf, s = pre ++ stripBoth p s ++ suf ∧
      (∀ c ∈ pre, p c = true) ∧ (∀ c ∈ suf, p c = true) := by
  have hd : s.dropWhile p =
      stripBoth p s ++ ((s.dropWhile p).reverse.takeWhile p).reverse := by
    have h1 : (s.dropWhile p).reverse.takeWhile p ++ (s.dropWhile p).reverse.dropWhile p
        = (s.dropWhile p).reverse := List.takeWhile_append_dropWhile p _
    have h2 := congrArg List.reverse h1
    rw [List.reverse_append, List.reverse_reverse] at h2
    exact h2.symm
  refine ⟨s.takeWhile p, ((s.dropWhile p).reverse.takeWhile p).reverse, ?_, ?_, ?_⟩
  · have h3 := congrArg (fun t => s.takeWhile p ++ t) hd
    simp only at h3
    rw [← List.append_assoc] at h3
    rw [List.takeWhile_append_dropWhile p s] at h3
    exact h3
  · exact fun c hc => List.mem_takeWhile_imp hc
  · intro c hc
    rw [List.mem_reverse] at hc
    exact List.mem_takeWhile_imp hc

theorem gStr_append (a b : Str) : gStr (a ++ b) = gStr a ++ gStr b := by
  unfold gStr unidecodeStr
  rw [List.flatMap_append, List.map_append]

theorem gStr_space {t : Str} (h : ∀ c ∈ t, pyIsSpace c = true) : gStr t = t := by
  unfold gStr unidecodeStr
  rw [List.map_flatMap]
  apply flatMap_id_of_singleton
  intro c hc
  obtain ⟨h1, _, _⟩ := space_char_props (h c hc)
  rw [uniChar_ascii h1]
  simp only [List.map_cons, List.map_nil]
  rw [gchar_space2 (h c hc)]

theorem normStr_pyStrip (s : Str) : normStr (pyStrip s) = normStr s := by
  obtain ⟨pre, suf, hdec, hpre, hsuf⟩ := strip_decomp pyIsSpace s
  have hdec2 : s = pre ++ pyStrip s ++ suf := hdec
  rw [normStr_eq_gStr, normStr_eq_gStr]
  conv_rhs => rw [hdec2]
  rw [gStr_append, gStr_append, gStr_space hpre, gStr_space hsuf,
    splitWords_space_suffix _ suf hsuf, splitWords_space_pre pre hpre]

theorem normStr_pyLower (s : Str) : normStr (pyLower s) = normStr s := by
  rw [normStr_eq_gStr, normStr_eq_gStr]
  congr 2
  unfold gStr unidecodeStr pyLower
  rw [List.map_flatMap, List.map_flatMap, List.flatMap_map]
  exact flatMap_congr _ (fun c _ => gchar_lower2 c)

theorem uniStr_ascii_fix {t : Str} (h : ∀ c ∈ t, c.toNat < 128) :
    unidecodeStr t = t := by
  unfold unidecodeStr
  exact flatMap_id_of_singleton t (fun c hc => uniChar_ascii (h c hc))

theorem uniStr_idem (s : Str) : unidecodeStr (unidecodeStr s) = unidecodeStr s := by
  apply uniStr_ascii_fix
  intro c hc
  unfold unidecodeStr at hc
  obtain ⟨a, _, hca⟩ := List.mem_flatMap.mp hc
  exact uniChar_out_ascii hca

theorem normStr_unidecode (s : Str) : normStr (unidecodeStr s) = normStr s := by
  rw [normStr_eq_gStr, normStr_eq_gStr]
  unfold gStr
  rw [uniStr_idem]

theorem normalWord_nospace {w : Str} (h : normalWord w) :
    w ≠ [] ∧ ∀ c ∈ w, pyIsSpace c = false :=
  ⟨h.1, fun c hc => (normalChar_spec (h.2 c hc)).2.2.2⟩

theorem gStr_joinSpace_normal (ws : List Str) (h : ∀ w ∈ ws, normalWord w) :
    gStr (joinSpace ws) = joinSpace ws := by
  unfold gStr unidecodeStr
  rw [List.map_flatMap]
  apply flatMap_id_of_singleton
  intro c hc
  rcases joinSpace_chars ws c hc with he | ⟨w, hw, hcw⟩
  · subst he
    decide
  · have hnc := (h w hw).2 c hcw
    obtain ⟨h1, _, _, _⟩ := normalChar_spec hnc
    rw [h1]
    simp only [List.map_cons, List.map_nil]
    rw [gchar_normal2 hnc]

theorem normStr_joinSpace_normal (ws : List Str) (h : ∀ w ∈ ws, normalWord w) :
    normStr (joinSpace ws) = joinSpace ws := by
  rw [normStr_eq_gStr, gStr_joinSpace_normal ws h,
    splitWords_joinSpace ws (fun w hw => normalWord_nospace (h w hw))]

theorem gStr_chars {s : Str} {c : Char} (hc : c ∈ gStr s) :
    pyIsSpace c = true ∨ normalChar c = true := by
  unfold gStr at hc
  obtain ⟨d, hd, he⟩ := List.mem_map.mp hc
  unfold unidecodeStr at hd
  obtain ⟨a, _, hda⟩ := List.mem_flatMap.mp hd
  have hascii : d.toNat < 128 := uniChar_out_ascii hda
  rcases gchar_ascii2 hascii with h | h
  · exact Or.inl (he ▸ h)
  · exact Or.inr (he ▸ h)

theorem normStr_tokens (s : Str) : ∀ w ∈ splitWords (normStr s), normalWord w := by
  intro w hw
  rw [normStr_eq_gStr] at hw
  have htok : ∀ v ∈ splitWords (gStr s), normalWord v := by
    intro v hv
    obtain ⟨hne, hch⟩ := splitWords_chars hv
    refine ⟨hne, fun c hc => ?_⟩
    obtain ⟨hmem, hns⟩ := hch c hc
    rcases gStr_chars hmem with h | h
    · rw [h] at hns
      exact absurd hns (by simp)
    · exact h
  rw [splitWords_joinSpace _ (fun v hv => normalWord_nospace (htok v hv))] at hw
  exact htok w hw

/-! ### Word variants preserve normality -/

theorem lookup_mem_gen {α β : Type} [BEq α] [LawfulBEq α] :
    ∀ (l : List (α × β)) {k : α} {v : β}, l.lookup k = some v → (k, v) ∈ l := by
  intro l
  induction l with
  | nil => intro k v h; simp [List.lookup] at h
  | cons p rest ih =>
    intro k v h
    obtain ⟨a, b⟩ := p
    by_cases he : k = a
    · subst he
      simp [List.lookup] at h
      rw [h]
      exact List.mem_cons_self _ _
    · simp only [List.lookup, beq_false_of_ne he] at h
      exact List.mem_cons_of_mem _ (ih h)

theorem dedupFirstAux_subset : ∀ (l seen : List Str) (v : Str),
    v ∈ dedupFirstAux seen l → v ∈ l := by
  intro l
  induction l with
  | nil => intro seen v h; simp [dedupFirstAux] at h
  | cons x xs ih =>
    intro seen v h
    simp only [dedupFirstAux] at h
    split at h
    · exact List.mem_cons_of_mem _ (ih _ _ h)
    · rcases List.mem_cons.mp h with he | hm
      · exact he ▸ List.mem_cons_self _ _
      · exact List.mem_cons_of_mem _ (ih _ _ hm)

theorem collapseVariants_chars : ∀ (w v : Str), v ∈ collapseVariants w →
    ∀ c ∈ v, c ∈ w := by
  intro w
  induction w with
  | nil => intro v h; simp [collapseVariants] at h
  | cons x w2 ih =>
    intro v h c hc
    cases w2 with
    | nil => simp [collapseVariants] at h
    | cons y rest =>
      simp only [collapseVariants] at h
      rcases List.mem_append.mp h with h1 | h2
      · by_cases hxy : x = y
        · rw [if_pos hxy] at h1
          simp only [List.mem_singleton] at h1
          subst h1
          exact List.mem_cons_of_mem _ hc
        · rw [if_neg hxy] at h1
          simp at h1
      · obtain ⟨v2, hv2, he⟩ := List.mem_map.mp h2
        subst he
        rcases List.mem_cons.mp hc with he2 | hm2
        · exact he2 ▸ List.mem_cons_self _ _
        · exact List.mem_cons_of_mem _ (ih v2 hv2 c hm2)

theorem swapVariants_chars : ∀ (w v : Str), v ∈ swapVariants w →
    ∀ c ∈ v, c ∈ w := by
  intro w
  induction w with
  | nil => intro v h; simp [swapVariants] at h
  | cons x w2 ih =>
    intro v h c hc
    cases w2 with
    | nil => simp [swapVariants] at h
    | cons y rest =>
      simp only [swapVariants] at h
      rcases List.mem_append.mp h with h1 | h2
      · by_cases hxy : x = y
        · simp [hxy] at h1
        · rw [if_pos hxy] at h1
          simp only [List.mem_singleton] at h1
          subst h1
          simp only [List.mem_cons] at hc ⊢
          tauto
      · obtain ⟨v2, hv2, he⟩ := List.mem_map.mp h2
        subst he
        rcases List.mem_cons.mp hc with he2 | hm2
        · exact he2 ▸ List.mem_cons_self _ _
        · exact List.mem_cons_of_mem _ (ih v2 hv2 c hm2)

theorem WORD_SUBSTITUTIONS_normal :
    ∀ p ∈ WORD_SUBSTITUTIONS, ∀ r ∈ p.2, ∀ c ∈ r, normalChar c = true := by decide

theorem substitutionVariants_chars {word v : Str} (h : v ∈ substitutionVariants word) :
    ∀ c ∈ v, c ∈ word ∨ normalChar c = true := by
  unfold substitutionVariants at h
  obtain ⟨p, hp, h2⟩ := List.mem_flatMap.mp h
  obtain ⟨i, hi, h3⟩ := List.mem_flatMap.mp h2
  obtain ⟨r, hr, he⟩ := List.mem_map.mp h3
  subst he
  intro c hc
  rcases List.mem_append.mp hc with h4 | h5
  · rcases List.mem_append.mp h4 with h6 | h7
    · exact Or.inl ((List.take_sublist _ _).mem h6)
    · cases hl : WORD_SUBSTITUTIONS.lookup p with
      | none =>
        rw [hl] at hr
        simp at hr
      | some rs =>
        rw [hl] at hr
        simp only [Option.getD_some] at hr
        have hmem := lookup_mem_gen WORD_SUBSTITUTIONS hl
        exact Or.inr (WORD_SUBSTITUTIONS_normal _ hmem r hr c h7)
  · exact Or.inl ((List.drop_sublist _ _).mem h5)

theorem generateWordVariants_normal {word : Str} (hw : normalWord word) :
    ∀ v ∈ generateWordVariants word, normalWord v := by
  intro v hv
  unfold generateWordVariants at hv
  rw [if_neg hw.1] at hv
  obtain ⟨hm, hcond⟩ := List.mem_filter.mp hv
  have hd := dedupFirstAux_subset _ [] v hm
  have hvne : v ≠ [] := by
    simp only [decide_eq_true_eq] at hcond
    exact hcond.1
  refine ⟨hvne, fun c hc => ?_⟩
  rcases List.mem_append.mp hd with h12 | h3
  · rcases List.mem_append.mp h12 with h1 | h2
    · exact hw.2 c (collapseVariants_chars word v h1 c hc)
    · exact hw.2 c (swapVariants_chars word v h2 c hc)
  · rcases substitutionVariants_chars h3 c hc with h | h
    · exact hw.2 c h
    · exact h

theorem getD_variants_normal {tokens : List Str} (ht : ∀ w ∈ tokens, normalWord w)
    (idx : Nat) : ∀ v ∈ generateWordVariants (tokens.getD idx []), normalWord v := by
  rw [List.getD_eq_getElem?_getD]
  cases hx : tokens[idx]? with
  | none =>
    intro v hv
    simp [generateWordVariants] at hv
  | some w =>
    simp only [Option.getD_some]
    exact generateWordVariants_normal (ht w (List.getElem?_mem hx))

/-! ### Invariants of the variant-collection search -/

theorem addVariant_mem {st : BfsState} {v : Str} :
    ∀ p ∈ st.collected, p ∈ (addVariant st v).collected := by
  intro p hp
  simp only [addVariant]
  split
  · exact hp
  · exact List.mem_append_left _ hp

theorem addVariant_inv {nb : Str} {st : BfsState} {v : Str}
    (hI : stInv nb st) (hv : normStr v = nb ∨ pyStrip v = normStr v) :
    stInv nb (addVariant st v) := by
  obtain ⟨h1, h2, h3⟩ := hI
  simp only [stInv, addVariant]
  split
  · exact ⟨h1, h2, h3⟩
  · rename_i hcond
    push_neg at hcond
    obtain ⟨hne, hnm⟩ := hcond
    refine ⟨?_, ?_, ?_⟩
    · simp only [List.map_append, List.map_cons, List.map_nil]
      rw [List.nodup_append]
      refine ⟨h1, List.nodup_singleton _, ?_⟩
      intro x hx hx2
      simp only [List.mem_singleton] at hx2
      exact hnm (hx2 ▸ hx)
    · intro p hp
      rcases List.mem_append.mp hp with h | h
      · exact h2 p h
      · simp only [List.mem_singleton] at h
        subst h
        exact normStr_pyStrip v
    · intro p hp
      rcases List.mem_append.mp hp with h | h
      · exact h3 p h
      · simp only [List.mem_singleton] at h
        subst h
        rcases hv with hv2 | hv2
        · exact Or.inl hv2
        · exact Or.inr hv2

theorem joinSpace_strip_eq_norm {nts : List Str} (h : ∀ w ∈ nts, normalWord w) :
    pyStrip (joinSpace nts) = normStr (joinSpace nts) := by
  rw [pyStrip_joinSpace _ (fun w hw => normalWord_nospace (h w hw)),
    normStr_joinSpace_normal _ h]

theorem candLoop_inv {nb : Str} (tokens : List Str) (idx depth : Nat)
    (htok : ∀ w ∈ tokens, normalWord w) :
    ∀ (cands : List Str) (st : BfsState) (app : List (List Str)),
    (∀ c ∈ cands, normalWord c) → stInv nb st →
    (∀ ts ∈ app, ∀ w ∈ ts, normalWord w) →
    stInv nb (candLoop tokens idx depth cands st app).1 ∧
    (∀ p ∈ st.collected, p ∈ (candLoop tokens idx depth cands st app).1.collected) ∧
    (∀ ts ∈ (candLoop tokens idx depth cands st app).2.1, ∀ w ∈ ts, normalWord w) := by
  intro cands
  induction cands with
  | nil =>
    intro st app _ hI happ
    simp only [candLoop]
    exact ⟨hI, fun p hp => hp, happ⟩
  | cons c cs ih =>
    intro st app hcs hI happ
    have hcnorm : normalWord c := hcs c (List.mem_cons_self _ _)
    have hcs2 : ∀ x ∈ cs, normalWord x := fun x hx => hcs x (List.mem_cons_of_mem _ hx)
    have hnts : ∀ w ∈ tokens.set idx c, normalWord w := by
      intro w hw
      rcases List.mem_or_eq_of_mem_set hw with h | h
      · exact htok w h
      · exact h ▸ hcnorm
    simp only [candLoop]
    split
    · exact ih st app hcs2 hI happ
    · have hval : pyStrip (joinSpace (tokens.set idx c)) =
          normStr (joinSpace (tokens.set idx c)) := joinSpace_strip_eq_norm hnts
      have hI1 : stInv nb
          { st with seen := st.seen ++ [joinSpace (tokens.set idx c)] } := hI
      have hI2 := addVariant_inv hI1 (Or.inr hval)
      split
      · exact ⟨hI2, fun p hp => addVariant_mem p hp, happ⟩
      · split
        · have happ2 : ∀ ts ∈ app ++ [tokens.set idx c], ∀ w ∈ ts, normalWord w := by
            intro ts hts
            rcases List.mem_append.mp hts with h | h
            · exact happ ts h
            · simp only [List.mem_singleton] at h
              exact h ▸ hnts
          obtain ⟨a1, a2, a3⟩ := ih _ _ hcs2 hI2 happ2
          exact ⟨a1, fun p hp => a2 p (addVariant_mem p hp), a3⟩
        · obtain ⟨a1, a2, a3⟩ := ih _ _ hcs2 hI2 happ
          exact ⟨a1, fun p hp => a2 p (addVariant_mem p hp), a3⟩

theorem idxLoop_inv {nb : Str} (tokens : List Str) (depth : Nat)
    (htok : ∀ w ∈ tokens, normalWord w) :
    ∀ (idxs : List Nat) (st : BfsState) (app : List (List Str)),
    stInv nb st →
    (∀ ts ∈ app, ∀ w ∈ ts, normalWord w) →
    stInv nb (idxLoop tokens depth idxs st app).1 ∧
    (∀ p ∈ st.collected, p ∈ (idxLoop tokens depth idxs st app).1.collected) ∧
    (∀ ts ∈ (idxLoop tokens depth idxs st app).2.1, ∀ w ∈ ts, normalWord w) := by
  intro idxs
  induction idxs with
  | nil =>
    intro st app hI happ
    simp only [idxLoop]
    exact ⟨hI, fun p hp => hp, happ⟩
  | cons i is ih =>
    intro st app hI happ
    simp only [idxLoop]
    have hcands : ∀ v ∈ generateWordVariants (tokens.getD i []), normalWord v :=
      getD_variants_normal htok i
    obtain ⟨c1, c2, c3⟩ := candLoop_inv tokens i depth htok _ st app hcands hI happ
    split
    · exact ⟨c1, c2, c3⟩
    · split
      · exact ⟨c1, c2, c3⟩
      · obtain ⟨d1, d2, d3⟩ := ih _ _ c1 c3
        exact ⟨d1, fun p hp => d2 p (c2 p hp), d3⟩

theorem whileLoop_inv {nb : Str} : ∀ (queue : List (List Str × Nat)) (st : BfsState),
    (∀ q ∈ queue, ∀ w ∈ q.1, normalWord w) → stInv nb st →
    stInv nb (whileLoop queue st) ∧
    (∀ p ∈ st.collected, p ∈ (whileLoop queue st).collected) := by
  intro queue st
  induction queue, st using whileLoop.induct with
  | case1 st =>
    intro _ hI
    simp only [whileLoop]
    exact ⟨hI, fun p hp => hp⟩
  | case2 tokens depth rest st res hhalt =>
    intro hQ hI
    have htok : ∀ w ∈ tokens, normalWord w :=
      fun w hw => hQ (tokens, depth) (List.mem_cons_self _ _) w hw
    obtain ⟨c1, c2, c3⟩ := idxLoop_inv tokens depth htok (List.range tokens.length) st []
      hI (by intro ts hts; simp at hts)
    have hh : (idxLoop tokens depth (List.range tokens.length) st []).2.2 = true := hhalt
    simp only [whileLoop]
    rw [if_pos hh]
    exact ⟨c1, c2⟩
  | case3 tokens depth rest st res hhalt hguard =>
    intro hQ hI
    have htok : ∀ w ∈ tokens, normalWord w :=
      fun w hw => hQ (tokens, depth) (List.mem_cons_self _ _) w hw
    obtain ⟨c1, c2, c3⟩ := idxLoop_inv tokens depth htok (List.range tokens.length) st []
      hI (by intro ts hts; simp at hts)
    have hh : ¬ (idxLoop tokens depth (List.range tokens.length) st []).2.2 = true := hhalt
    have hg : MAX_VARIANTS * 3 ≤
        (idxLoop tokens depth (List.range tokens.length) st []).1.collected.length := hguard
    simp only [whileLoop]
    rw [if_neg hh, if_pos hg]
    exact ⟨c1, c2⟩
  | case4 tokens depth rest st res hhalt hguard ih =>
    intro hQ hI
    have htok : ∀ w ∈ tokens, normalWord w :=
      fun w hw => hQ (tokens, depth) (List.mem_cons_self _ _) w hw
    obtain ⟨c1, c2, c3⟩ := idxLoop_inv tokens depth htok (List.range tokens.length) st []
      hI (by intro ts hts; simp at hts)
    have hh : ¬ (idxLoop tokens depth (List.range tokens.length) st []).2.2 = true := hhalt
    have hg : ¬ MAX_VARIANTS * 3 ≤
        (idxLoop tokens depth (List.range tokens.length) st []).1.collected.length := hguard
    simp only [whileLoop]
    rw [if_neg hh, if_neg hg]
    have hQ2 : ∀ q ∈ rest ++
        (idxLoop tokens depth (List.range tokens.length) st []).2.1.map
          (fun ts => (ts, depth + 1)), ∀ w ∈ q.1, normalWord w := by
      intro q hq
      rcases List.mem_append.mp hq with h | h
      · exact hQ q (List.mem_cons_of_mem _ h)
      · obtain ⟨ts, hts, he⟩ := List.mem_map.mp h
        subst he
        exact c3 ts hts
    obtain ⟨d1, d2⟩ := ih hQ2 c1
    exact ⟨d1, fun p hp => d2 p (c2 p hp)⟩

/-! ### The ranking of collected variants -/

theorem lev_self : ∀ (a : Str), lev a a = 0 := by
  intro a
  induction a with
  | nil =>
    rw [lev.eq_def]
    simp
  | cons x xs ih =>
    rw [lev.eq_def]
    simp [ih]

theorem lev_eq_zero : ∀ (a b : Str), lev a b = 0 → a = b := by
  intro a
  induction a with
  | nil =>
    intro b h
    rw [lev.eq_def] at h
    cases b with
    | nil => rfl
    | cons y ys => simp at h
  | cons x xs ih =>
    intro b h
    cases b with
    | nil =>
      rw [lev.eq_def] at h
      simp at h
    | cons y ys =>
      rw [lev.eq_def] at h
      simp only [] at h
      by_cases hxy : x = y
      · rw [if_pos hxy] at h
        rw [hxy, ih ys h]
      · rw [if_neg hxy] at h
        omega

theorem collected_output_spec (nb : Str) (st : BfsState) (hI : stInv nb st)
    (v0 : Str) (hmem : (nb, v0) ∈ st.collected) :
    ((((st.collected.map (fun kv => (lev nb kv.1, kv.2))).mergeSort
        (fun a b => decide (a.1 < b.1 ∨ (a.1 = b.1 ∧ ¬ b.2 < a.2)))).map Prod.snd).take
        MAX_VARIANTS).length ≤ MAX_VARIANTS ∧
    (∃ v ∈ (((st.collected.map (fun kv => (lev nb kv.1, kv.2))).mergeSort
        (fun a b => decide (a.1 < b.1 ∨ (a.1 = b.1 ∧ ¬ b.2 < a.2)))).map Prod.snd).take
        MAX_VARIANTS, normStr v = nb) ∧
    ((((st.collected.map (fun kv => (lev nb kv.1, kv.2))).mergeSort
        (fun a b => decide (a.1 < b.1 ∨ (a.1 = b.1 ∧ ¬ b.2 < a.2)))).map Prod.snd).take
        MAX_VARIANTS).Pairwise (fun a b =>
      lev nb (normStr a) < lev nb (normStr b) ∨
        (lev nb (normStr a) = lev nb (normStr b) ∧ normStr a < normStr b)) := by
  obtain ⟨hnd, hI2, hI3⟩ := hI
  have htrans : ∀ (x y z : Nat × Str),
      decide (x.1 < y.1 ∨ (x.1 = y.1 ∧ ¬ y.2 < x.2)) = true →
      decide (y.1 < z.1 ∨ (y.1 = z.1 ∧ ¬ z.2 < y.2)) = true →
      decide (x.1 < z.1 ∨ (x.1 = z.1 ∧ ¬ z.2 < x.2)) = true := by
    intro x y z hxy hyz
    simp only [decide_eq_true_eq] at hxy hyz ⊢
    rcases hxy with h | ⟨h1, h2⟩
    · rcases hyz with g | ⟨g1, g2⟩
      · exact Or.inl (h.trans g)
      · exact Or.inl (g1 ▸ h)
    · rcases hyz with g | ⟨g1, g2⟩
      · exact Or.inl (h1 ▸ g)
      · refine Or.inr ⟨h1.trans g1, ?_⟩
        simp only [not_lt] at h2 g2 ⊢
        exact le_trans h2 g2
  have htotal : ∀ (x y : Nat × Str),
      (decide (x.1 < y.1 ∨ (x.1 = y.1 ∧ ¬ y.2 < x.2)) ||
        decide (y.1 < x.1 ∨ (y.1 = x.1 ∧ ¬ x.2 < y.2))) = true := by
    intro x y
    simp only [Bool.or_eq_true, decide_eq_true_eq]
    rcases Nat.lt_trichotomy x.1 y.1 with h | h | h
    · exact Or.inl (Or.inl h)
    · rcases le_or_lt x.2 y.2 with h2 | h2
      · exact Or.inl (Or.inr ⟨h, not_lt.mpr h2⟩)
      · exact Or.inr (Or.inr ⟨h.symm, not_lt.mpr (le_of_lt h2)⟩)
    · exact Or.inr (Or.inl h)
  have hperm := List.mergeSort_perm (st.collected.map (fun kv => (lev nb kv.1, kv.2)))
    (fun a b => decide (a.1 < b.1 ∨ (a.1 = b.1 ∧ ¬ b.2 < a.2)))
  have hsorted := @List.sorted_mergeSort (Nat × Str)
    (fun a b => decide (a.1 < b.1 ∨ (a.1 = b.1 ∧ ¬ b.2 < a.2))) htrans htotal
    (st.collected.map (fun kv => (lev nb kv.1, kv.2)))
  have hfacts : ∀ q ∈ (st.collected.map (fun kv => (lev nb kv.1, kv.2))).mergeSort
      (fun a b => decide (a.1 < b.1 ∨ (a.1 = b.1 ∧ ¬ b.2 < a.2))),
      q.1 = lev nb (normStr q.2) ∧ (normStr q.2 = nb ∨ q.2 = normStr q.2) := by
    intro q hq
    have hq2 := hperm.mem_iff.mp hq
    obtain ⟨kv, hkv, he⟩ := List.mem_map.mp hq2
    have h2 := hI2 kv hkv
    have h3 := hI3 kv hkv
    subst he
    refine ⟨by simp only []; rw [h2], ?_⟩
    rcases h3 with h | h
    · exact Or.inl (h2.trans h)
    · exact Or.inr (h.trans h2.symm)
  have hv0 : ((0 : Nat), v0) ∈ (st.collected.map (fun kv => (lev nb kv.1, kv.2))).mergeSort
      (fun a b => decide (a.1 < b.1 ∨ (a.1 = b.1 ∧ ¬ b.2 < a.2))) := by
    apply hperm.mem_iff.mpr
    apply List.mem_map.mpr
    exact ⟨(nb, v0), hmem, by rw [lev_self]⟩
  have hpairNe : ((st.collected.map (fun kv => (lev nb kv.1, kv.2))).mergeSort
      (fun a b => decide (a.1 < b.1 ∨ (a.1 = b.1 ∧ ¬ b.2 < a.2)))).Pairwise
      (fun a b : Nat × Str => normStr a.2 ≠ normStr b.2) := by
    have h0 : st.collected.Pairwise (fun kv kw => kv.1 ≠ kw.1) := List.pairwise_map.mp hnd
    have h1 : (st.collected.map (fun kv => (lev nb kv.1, kv.2))).Pairwise
        (fun a b : Nat × Str => normStr a.2 ≠ normStr b.2) := by
      rw [List.pairwise_map]
      refine List.Pairwise.imp_of_mem ?_ h0
      intro a b ha hb hne2 heq
      exact hne2 (by rw [← hI2 a ha, ← hI2 b hb, heq])
    exact (List.Perm.pairwise_iff (fun h => h.symm) hperm).mpr h1
  have hpairR : ((st.collected.map (fun kv => (lev nb kv.1, kv.2))).mergeSort
      (fun a b => decide (a.1 < b.1 ∨ (a.1 = b.1 ∧ ¬ b.2 < a.2)))).Pairwise
      (fun a b : Nat × Str =>
        lev nb (normStr a.2) < lev nb (normStr b.2) ∨
          (lev nb (normStr a.2) = lev nb (normStr b.2) ∧ normStr a.2 < normStr b.2)) := by
    have hcomb := hsorted.and hpairNe
    refine List.Pairwise.imp_of_mem ?_ hcomb
    intro a b ha hb hab
    obtain ⟨hab1, hab2⟩ := hab
    obtain ⟨ha1, ha2⟩ := hfacts a ha
    obtain ⟨hb1, hb2⟩ := hfacts b hb
    simp only [decide_eq_true_eq] at hab1
    rcases hab1 with h | ⟨h1, h2⟩
    · exact Or.inl (by rw [← ha1, ← hb1]; exact h)
    · rcases ha2 with hA | hA
      · exfalso
        have ha0 : a.1 = 0 := by rw [ha1, hA, lev_self]
        have hb0 : b.1 = 0 := by rw [← h1, ha0]
        have hz : nb = normStr b.2 := lev_eq_zero _ _ (by rw [← hb1, hb0])
        exact hab2 (hA.trans hz)
      · rcases hb2 with hB | hB
        · exfalso
          have hb0 : b.1 = 0 := by rw [hb1, hB, lev_self]
          have ha0 : a.1 = 0 := by rw [h1, hb0]
          have hz : nb = normStr a.2 := lev_eq_zero _ _ (by rw [← ha1, ha0])
          exact hab2 (hz.symm.trans hB.symm)
        · right
          refine ⟨by rw [← ha1, ← hb1]; exact h1, ?_⟩
          simp only [not_lt] at h2
          rw [← hA, ← hB]
          exact lt_of_le_of_ne h2 (fun he => hab2 (by rw [← hA, ← hB, he]))
  refine ⟨?_, ?_, ?_⟩
  · rw [List.length_take]
    exact min_le_left _ _
  · cases hspc : (st.collected.map (fun kv => (lev nb kv.1, kv.2))).mergeSort
        (fun a b => decide (a.1 < b.1 ∨ (a.1 = b.1 ∧ ¬ b.2 < a.2))) with
    | nil => rw [hspc] at hv0; simp at hv0
    | cons hd tl =>
      have hhd0 : hd.1 = 0 := by
        rw [hspc] at hv0
        rcases List.mem_cons.mp hv0 with he | hm
        · rw [← he]
        · rw [hspc] at hsorted
          have hle := (List.pairwise_cons.mp hsorted).1 _ hm
          simp only [decide_eq_true_eq] at hle
          rcases hle with h | ⟨h1, _⟩
          · omega
          · exact h1
      obtain ⟨hf1, _⟩ := hfacts hd (by rw [hspc]; exact List.mem_cons_self _ _)
      have hhdn : normStr hd.2 = nb := (lev_eq_zero _ _ (by rw [← hf1, hhd0])).symm
      refine ⟨hd.2, ?_, hhdn⟩
      simp only [List.map_cons]
      rw [show MAX_VARIANTS = 4 + 1 from rfl, List.take_succ_cons]
      exact List.mem_cons_self _ _
  · have h1 : (((st.collected.map (fun kv => (lev nb kv.1, kv.2))).mergeSort
        (fun a b => decide (a.1 < b.1 ∨ (a.1 = b.1 ∧ ¬ b.2 < a.2)))).map Prod.snd).Pairwise
        (fun a b =>
          lev nb (normStr a) < lev nb (normStr b) ∨
            (lev nb (normStr a) = lev nb (normStr b) ∧ normStr a < normStr b)) := by
      rw [List.pairwise_map]
      exact hpairR
    exact List.Pairwise.sublist (List.take_sublist _ _) h1

theorem addVariant_key_nil {st : BfsState} {v : Str} (h : normStr v = []) :
    addVariant st v = st := by
  simp only [addVariant]
  rw [if_pos (Or.inl h)]

theorem addVariant_empty (v : Str) (h : normStr v ≠ []) :
    (addVariant ⟨[], []⟩ v).collected = [(normStr v, pyStrip v)] := by
  simp only [addVariant]
  split
  · rename_i hcond
    rcases hcond with h2 | h2
    · exact absurd h2 h
    · simp at h2
  · rfl

theorem expand_nil_of_norm_nil (s : Str) (h : normStr (pyStrip s) = []) :
    expandSearchTextVariants (some s) = [] := by
  simp only [expandSearchTextVariants]
  by_cases hb : pyStrip s = []
  · rw [if_pos hb]
  · have hL : normStr (pyLower (pyStrip s)) = [] := by
      rw [normStr_pyLower]
      exact h
    have hU : normStr (unidecodeStr (pyStrip s)) = [] := by
      rw [normStr_unidecode]
      exact h
    rw [if_neg hb, addVariant_key_nil h, addVariant_key_nil hL, addVariant_key_nil hU, h]
    have hsw : splitWords ([] : Str) = [] := by decide
    rw [hsw]
    simp [List.mergeSort_nil]

theorem expand_some_spec (s : Str) (hnb : normStr (pyStrip s) ≠ []) :
    (expandSearchTextVariants (some s)).length ≤ MAX_VARIANTS ∧
    (∃ v ∈ expandSearchTextVariants (some s), normStr v = normStr (pyStrip s)) ∧
    (expandSearchTextVariants (some s)).Pairwise (fun a b =>
      lev (normStr (pyStrip s)) (normStr a) < lev (normStr (pyStrip s)) (normStr b) ∨
        (lev (normStr (pyStrip s)) (normStr a) = lev (normStr (pyStrip s)) (normStr b) ∧
          normStr a < normStr b)) := by
  have hb : pyStrip s ≠ [] := by
    intro he
    rw [he] at hnb
    exact hnb (by decide)
  simp only [expandSearchTextVariants]
  rw [if_neg hb]
  have hI0 : stInv (normStr (pyStrip s)) (addVariant ⟨[], []⟩ (pyStrip s)) := by
    apply addVariant_inv
    · exact ⟨by simp, by simp, by simp⟩
    · exact Or.inl rfl
  have hmem0 : (normStr (pyStrip s), pyStrip s) ∈
      (addVariant ⟨[], []⟩ (pyStrip s)).collected := by
    rw [addVariant_empty _ hnb, pyStrip_idem]
    simp
  have hI1 := addVariant_inv hI0 (Or.inl (normStr_pyLower (pyStrip s)))
  have hm1 := @addVariant_mem _ (pyLower (pyStrip s)) _ hmem0
  have hI2s := addVariant_inv hI1 (Or.inl (normStr_unidecode (pyStrip s)))
  have hm2 := @addVariant_mem _ (unidecodeStr (pyStrip s)) _ hm1
  by_cases hte : (splitWords (normStr (pyStrip s))).isEmpty = true
  · rw [if_pos hte]
    exact collected_output_spec _ _ hI2s _ hm2
  · rw [if_neg hte]
    have htoks : ∀ q ∈ [(splitWords (normStr (pyStrip s)), 0)], ∀ w ∈ q.1, normalWord w := by
      intro q hq w hw
      simp only [List.mem_singleton] at hq
      subst hq
      exact normStr_tokens (pyStrip s) w hw
    have hIseen : stInv (normStr (pyStrip s))
        { addVariant (addVariant (addVariant ⟨[], []⟩ (pyStrip s)) (pyLower (pyStrip s)))
            (unidecodeStr (pyStrip s)) with
          seen := [joinSpace (splitWords (normStr (pyStrip s)))] } := hI2s
    obtain ⟨hWI, hWm⟩ := whileLoop_inv _ _ htoks hIseen
    exact collected_output_spec _ _ hWI _ (hWm _ hm2)

/-- C3: the original claim fails at a blank phrase: the expansion of `" "` is
empty, so it contains no variant at all, in particular none whose normalized
form is that of the phrase. -/
theorem expand_variants_counterexample :
    expandSearchTextVariants (some [' ']) = [] ∧
    ¬ ∃ v ∈ expandSearchTextVariants (some [' ']), normStr v = normStr [' '] := by
  decide

/-- C3 (amended: the phrase must have a non-empty normalized form): the
expansion returns at most `MAX_VARIANTS = 5` variants, contains a variant
normalized-equivalent to the phrase, and no two returned variants share a
normalized form. -/
theorem expand_variants_spec (p : Str) (h : normStr p ≠ []) :
    (expandSearchTextVariants (some p)).length ≤ MAX_VARIANTS ∧
    (∃ v ∈ expandSearchTextVariants (some p), normStr v = normStr p) ∧
    (expandSearchTextVariants (some p)).Pairwise (fun a b => normStr a ≠ normStr b) := by
  have hnb : normStr (pyStrip p) ≠ [] := by
    rw [normStr_pyStrip]
    exact h
  obtain ⟨h1, h2, h3⟩ := expand_some_spec p hnb
  refine ⟨h1, ?_, ?_⟩
  · obtain ⟨v, hv, he⟩ := h2
    exact ⟨v, hv, by rw [he, normStr_pyStrip]⟩
  · refine List.Pairwise.imp_of_mem ?_ h3
    intro a b _ _ hr
    rcases hr with hlt | ⟨_, hlt⟩
    · intro he
      rw [he] at hlt
      exact lt_irrefl _ hlt
    · exact ne_of_lt hlt

theorem expand_variants_spec_witness :
    normStr "lux".data ≠ [] ∧
    ((expandSearchTextVariants (some "lux".data)).length ≤ MAX_VARIANTS ∧
      (∃ v ∈ expandSearchTextVariants (some "lux".data),
        normStr v = normStr "lux".data) ∧
      (expandSearchTextVariants (some "lux".data)).Pairwise
        (fun a b => normStr a ≠ normStr b)) :=
  ⟨by decide, expand_variants_spec _ (by decide)⟩

/-- C4: the returned variants are ordered by ascending Levenshtein distance
between the normalized base phrase and each variant's normalized form, with
ties broken by lexicographic order on the variant's normalized form. -/
theorem expand_variants_sorted (p : Option Str) :
    (expandSearchTextVariants p).Pairwise (fun a b =>
      lev (normalizeText p) (normStr a) < lev (normalizeText p) (normStr b) ∨
        (lev (normalizeText p) (normStr a) = lev (normalizeText p) (normStr b) ∧
          normStr a < normStr b)) := by
  cases p with
  | none =>
    have he : expandSearchTextVariants none = [] := rfl
    rw [he]
    exact List.Pairwise.nil
  | some s =>
    by_cases hnb : normStr (pyStrip s) = []
    · rw [expand_nil_of_norm_nil s hnb]
      exact List.Pairwise.nil
    · have h3 := (expand_some_spec s hnb).2.2
      have heq : normalizeText (some s) = normStr (pyStrip s) := (normStr_pyStrip s).symm
      rw [heq]
      exact h3

/-! ### Lemmas about the fuzzy matcher -/

theorem extractOne_foldl (q : Str) :
    ∀ (choices : List Str) (best : Option (Str × ℚ)),
      (∀ p, best = some p → p.2 = tokenSetScore q p.1) →
      ((choices.foldl (extractStep q) best = none ↔ (best = none ∧ choices = [])) ∧
       (∀ p, choices.foldl (extractStep q) best = some p →
         (p.2 = tokenSetScore q p.1 ∧ (p.1 ∈ choices ∨ best = some p))) ∧
       (∀ p, choices.foldl (extractStep q) best = some p →
         (∀ t ∈ choices, tokenSetScore q t ≤ p.2) ∧ (∀ b, best = some b → b.2 ≤ p.2))) := by
  intro choices
  induction choices with
  | nil =>
    intro best hb
    refine ⟨by simp, ?_, ?_⟩
    · intro p hp
      exact ⟨hb p hp, Or.inr hp⟩
    · intro p hp
      refine ⟨by simp, ?_⟩
      intro b hbb
      rw [List.foldl_nil] at hp
      rw [hbb] at hp
      injection hp with he
      rw [he]
  | cons c cs ih =>
    intro best hb
    have hstep : ∀ p, extractStep q best c = some p → p.2 = tokenSetScore q p.1 := by
      intro p hp
      unfold extractStep at hp
      cases best with
      | none =>
        injection hp with he
        rw [← he]
      | some b0 =>
        obtain ⟨bc, bs⟩ := b0
        simp only at hp
        split at hp <;> (injection hp with he; rw [← he]; try exact hb (bc, bs) rfl)
    have hstep_ne : extractStep q best c ≠ none := by
      unfold extractStep
      cases best with
      | none => simp
      | some b0 =>
        obtain ⟨bc, bs⟩ := b0
        simp only
        split <;> simp
    obtain ⟨ih1, ih2, ih3⟩ := ih (extractStep q best c) hstep
    rw [List.foldl_cons]
    refine ⟨?_, ?_, ?_⟩
    · constructor
      · intro h
        exact absurd (ih1.mp h).1 hstep_ne
      · intro h
        exact absurd h.2 (List.cons_ne_nil c cs)
    · intro p hp
      obtain ⟨hscore, hmem⟩ := ih2 p hp
      refine ⟨hscore, ?_⟩
      rcases hmem with hm | hbp
      · exact Or.inl (List.mem_cons_of_mem _ hm)
      · unfold extractStep at hbp
        cases best with
        | none =>
          injection hbp with he
          exact Or.inl (by rw [← he]; exact List.mem_cons_self _ _)
        | some b0 =>
          obtain ⟨bc, bs⟩ := b0
          simp only at hbp
          split at hbp
          · injection hbp with he
            exact Or.inl (by rw [← he]; exact List.mem_cons_self _ _)
          · injection hbp with he
            exact Or.inr (by rw [he])
    · intro p hp
      obtain ⟨hcs, hbest'⟩ := ih3 p hp
      have hc_le : tokenSetScore q c ≤ p.2 := by
        unfold extractStep at hbest'
        cases best with
        | none => exact le_of_eq_of_le rfl (hbest' (c, tokenSetScore q c) rfl)
        | some b0 =>
          obtain ⟨bc, bs⟩ := b0
          simp only at hbest'
          by_cases hgt : tokenSetScore q c > bs
          · rw [if_pos hgt] at hbest'
            exact hbest' (c, tokenSetScore q c) rfl
          · rw [if_neg hgt] at hbest'
            exact le_trans (not_lt.mp hgt) (hbest' (bc, bs) rfl)
      refine ⟨?_, ?_⟩
      · intro t ht
        rcases List.mem_cons.mp ht with he | hm
        · rw [he]; exact hc_le
        · exact hcs t hm
      · intro b hbb
        unfold extractStep at hbest'
        cases best with
        | none => exact absurd hbb (by simp)
        | some b0 =>
          obtain ⟨bc, bs⟩ := b0
          injection hbb with he
          subst he
          simp only at hbest'
          by_cases hgt : tokenSetScore q c > bs
          · rw [if_pos hgt] at hbest'
            exact le_trans (le_of_lt hgt) (hbest' (c, tokenSetScore q c) rfl)
          · rw [if_neg hgt] at hbest'
            exact hbest' (bc, bs) rfl

theorem extractOne_none_iff (q : Str) (choices : List Str) :
    extractOne q choices = none ↔ choices = [] := by
  unfold extractOne
  rw [(extractOne_foldl q choices none (by simp)).1]
  simp

theorem extractOne_max {q : Str} {choices : List Str} {p : Str × ℚ}
    (h : extractOne q choices = some p) :
    p.2 = tokenSetScore q p.1 ∧ p.1 ∈ choices ∧
      ∀ t ∈ choices, tokenSetScore q t ≤ p.2 := by
  unfold extractOne at h
  obtain ⟨h2, h3⟩ := (extractOne_foldl q choices none (by simp)).2
  obtain ⟨hs, hm⟩ := h2 p h
  rcases hm with hm | hm
  · exact ⟨hs, hm, (h3 p h).1⟩
  · exact absurd hm (by simp)

theorem fuzzyStep_none_iff (targets : List (Str × Str)) (choices : List Str)
    (threshold : ℚ) (best : Option FuzzyMatchResult) (sc : Str × Option Str)
    (hch : choices ≠ []) :
    fuzzyCandidateStep targets choices threshold best sc = none ↔
      (best = none ∧ (normalizeText sc.2 = [] ∨
        ∀ t ∈ choices, tokenSetScore (normalizeText sc.2) t < threshold)) := by
  unfold fuzzyCandidateStep
  by_cases hn : normalizeText sc.2 = []
  · rw [if_pos hn]
    simp [hn]
  · rw [if_neg hn]
    cases he : extractOne (normalizeText sc.2) choices with
    | none => exact absurd ((extractOne_none_iff _ _).mp he) hch
    | some p =>
      obtain ⟨pc, ps⟩ := p
      obtain ⟨hs, hm, hmax⟩ := extractOne_max he
      simp only at hs hm hmax
      simp only []
      by_cases hlt : ps < threshold
      · rw [if_pos hlt]
        constructor
        · intro hb
          refine ⟨hb, Or.inr ?_⟩
          intro t ht
          exact lt_of_le_of_lt (hmax t ht) hlt
        · exact fun hb => hb.1
      · rw [if_neg hlt]
        constructor
        · intro hcontra
          cases best with
          | none => exact absurd hcontra (by simp)
          | some b =>
            simp only at hcontra
            split at hcontra <;> exact absurd hcontra (by simp)
        · intro ⟨hb, hdisj⟩
          rcases hdisj with hd | hd
          · exact absurd hd hn
          · have := hd pc hm
            rw [hs] at hlt
            exact absurd this hlt

theorem fuzzyStep_score (targets : List (Str × Str)) (choices : List Str)
    (threshold : ℚ) (best : Option FuzzyMatchResult) (sc : Str × Option Str)
    (hbest : ∀ b, best = some b → threshold ≤ b.score) :
    ∀ r, fuzzyCandidateStep targets choices threshold best sc = some r →
      threshold ≤ r.score := by
  intro r hr
  unfold fuzzyCandidateStep at hr
  by_cases hn : normalizeText sc.2 = []
  · rw [if_pos hn] at hr
    exact hbest r hr
  · rw [if_neg hn] at hr
    cases he : extractOne (normalizeText sc.2) choices with
    | none =>
      rw [he] at hr
      exact hbest r hr
    | some p =>
      obtain ⟨pc, ps⟩ := p
      rw [he] at hr
      simp only at hr
      by_cases hlt : ps < threshold
      · rw [if_pos hlt] at hr
        exact hbest r hr
      · rw [if_neg hlt] at hr
        cases best with
        | none =>
          injection hr with he2
          rw [← he2]
          exact not_lt.mp hlt
        | some b =>
          simp only at hr
          split at hr
          · injection hr with he2
            rw [← he2]
            exact not_lt.mp hlt
          · injection hr with he2
            rw [← he2]
            exact hbest b rfl

/-- **C5.** For every base phrase, title, brand and threshold,
`find_best_fuzzy_match` returns `none` exactly when, for each of title and
brand, the candidate is blank after normalization or scores below the
threshold against every target; and any returned result has
`score ≥ threshold`. -/
theorem find_best_fuzzy_match_spec (base title brand : Option Str) (threshold : ℚ) :
    (find_best_fuzzy_match base title brand threshold = none ↔
      ∀ cand ∈ [title, brand], normalizeText cand = [] ∨
        ∀ t ∈ (build_fuzzy_targets (base.getD [])).map Prod.fst,
          tokenSetScore (normalizeText cand) t < threshold) ∧
    (∀ r, find_best_fuzzy_match base title brand threshold = some r →
      threshold ≤ r.score) := by
  cases base with
  | none =>
    refine ⟨⟨fun _ cand _ => ?_, fun _ => rfl⟩,
      fun r hr => absurd hr (by simp [find_best_fuzzy_match])⟩
    right
    intro t ht
    exact absurd ht (by simp [build_fuzzy_targets, normStr, normalizeText])
  | some b =>
    by_cases hb : b = []
    · subst hb
      refine ⟨⟨fun _ cand _ => ?_, fun _ => rfl⟩,
        fun r hr => absurd hr (by simp [find_best_fuzzy_match])⟩
      right
      intro t ht
      exact absurd ht (by simp [build_fuzzy_targets, normStr, normalizeText])
    · by_cases hte : (build_fuzzy_targets b).isEmpty = true
      · have hnone : find_best_fuzzy_match (some b) title brand threshold = none := by
          simp only [find_best_fuzzy_match, if_neg hb, if_pos hte]
        have htnil : build_fuzzy_targets b = [] := List.isEmpty_iff.mp hte
        refine ⟨⟨fun _ cand _ => ?_, fun _ => hnone⟩,
          fun r hr => absurd (hnone ▸ hr) (by simp)⟩
        right
        intro t ht
        rw [Option.getD_some, htnil] at ht
        exact absurd ht (by simp)
      · have hch : (build_fuzzy_targets b).map Prod.fst ≠ [] := by
          intro e
          exact hte (List.isEmpty_iff.mpr (List.map_eq_nil_iff.mp e))
        have hfold : find_best_fuzzy_match (some b) title brand threshold =
            fuzzyCandidateStep (build_fuzzy_targets b)
              ((build_fuzzy_targets b).map Prod.fst) threshold
              (fuzzyCandidateStep (build_fuzzy_targets b)
                ((build_fuzzy_targets b).map Prod.fst) threshold none
                ("title".data, title))
              ("brand".data, brand) := by
          simp only [find_best_fuzzy_match, if_neg hb, if_neg hte]
          rw [show (["title".data, "brand".data].zip [title, brand]) =
            [("title".data, title), ("brand".data, brand)] from rfl]
          rw [List.foldl_cons, List.foldl_cons, List.foldl_nil]
        constructor
        · rw [hfold, fuzzyStep_none_iff _ _ _ _ _ hch, fuzzyStep_none_iff _ _ _ _ _ hch]
          simp only [Option.getD_some, List.mem_cons, List.not_mem_nil, or_false,
            forall_eq_or_imp, forall_eq, true_and]
        · intro r hr
          rw [hfold] at hr
          have h1 : ∀ b0, (none : Option FuzzyMatchResult) = some b0 → threshold ≤ b0.score := by
            intro b0 hb0
            exact absurd hb0 (by simp)
          exact fuzzyStep_score _ _ _ _ _
            (fuzzyStep_score _ _ _ _ _ h1) r hr

/-- Witness for C5 at base `"a"`, title `"a"`, threshold 72: a match is
returned and its score clears the threshold. -/
theorem find_best_fuzzy_match_spec_witness :
    ∃ r, find_best_fuzzy_match (some ['a']) (some ['a']) none 72 = some r ∧
      (72 : ℚ) ≤ r.score := by
  have hts : tokenSetScore ['a'] ['a'] = 100 := by
    norm_num [tokenSetScore, dedupFirst, dedupFirstAux, splitWords, wordsAux, pyIsSpace,
      List.mergeSort_singleton, joinSpace, ratioScore, indelDist, lcsLen, lcsRowGo,
      List.filter, List.replicate]
  have hn : normalizeText (some ['a']) = ['a'] := by decide
  have hmap : (build_fuzzy_targets ['a']).map Prod.fst = [['a']] := by decide
  cases h : find_best_fuzzy_match (some ['a']) (some ['a']) none 72 with
  | none =>
    have := (find_best_fuzzy_match_spec (some ['a']) (some ['a']) none 72).1.mp h
      (some ['a']) (List.mem_cons_self _ _)
    rcases this with hc | hc
    · rw [hn] at hc
      exact absurd hc (by simp)
    · have h2 := hc ['a'] (by rw [Option.getD_some, hmap]; exact List.mem_cons_self _ _)
      rw [hn, hts] at h2
      norm_num at h2
  | some r =>
    exact ⟨r, rfl, (find_best_fuzzy_match_spec (some ['a']) (some ['a']) none 72).2 r h⟩

/-! ### Lemmas about the sold-comps state filter -/

/-- An item that yields a comparable has a selling state that is either
falsy (absent/empty) or exactly `"EndedWithSales"`. -/
theorem processSoldItem_state {item : JsonVal} {c : ListingComp}
    (h : EbayMarketDataFetcher.processSoldItem item = .ok (some c)) :
    ∃ s, EbayMarketDataFetcher.sellingStateOf item = .ok s ∧
      (pyTruthy s = false ∨ s = .str "EndedWithSales".data) := by
  unfold EbayMarketDataFetcher.processSoldItem at h
  cases hss0 : pyGetD item "sellingStatus".data (.arr [.obj []]) with
  | error e => rw [hss0] at h; simp at h
  | ok ss0 =>
  rw [hss0] at h
  simp only [] at h
  cases hstat : pyIndex0 ss0 with
  | error e => rw [hstat] at h; simp at h
  | ok selling_status =>
  rw [hstat] at h
  simp only [] at h
  cases hconv : pyGet selling_status "convertedCurrentPrice".data with
  | error e => rw [hconv] at h; simp at h
  | ok converted =>
  rw [hconv] at h
  simp only [] at h
  cases hcur : pyGet selling_status "currentPrice".data with
  | error e => rw [hcur] at h; simp at h
  | ok current =>
  rw [hcur] at h
  simp only [] at h
  cases hpc : EbayMarketDataFetcher.extract_price (pyOr converted current) with
  | error e => rw [hpc] at h; simp at h
  | ok pc =>
  rw [hpc] at h
  simp only [] at h
  cases hst0 : pyGetD selling_status "sellingState".data (.arr [.str []]) with
  | error e => rw [hst0] at h; simp at h
  | ok st0 =>
  rw [hst0] at h
  simp only [] at h
  cases hstate : pyIndex0 st0 with
  | error e => rw [hstate] at h; simp at h
  | ok state =>
  rw [hstate] at h
  simp only [] at h
  refine ⟨state, ?_, ?_⟩
  · unfold EbayMarketDataFetcher.sellingStateOf
    rw [hss0]
    simp only []
    rw [hstat]
    simp only []
    rw [hst0]
    simp only []
    exact hstate
  · by_cases hcond : pyTruthy state = true ∧ state ≠ .str "EndedWithSales".data
    · rw [if_pos hcond] at h
      simp at h
    · rcases not_and_or.mp hcond with hl | hr
      · exact Or.inl (Bool.not_eq_true _ ▸ hl)
      · exact Or.inr (not_not.mp hr)

/-- An item whose selling state is truthy and not `"EndedWithSales"` never
yields a comparable. -/
theorem processSoldItem_excluded {item : JsonVal} {s : JsonVal}
    (hs : EbayMarketDataFetcher.sellingStateOf item = .ok s)
    (ht : pyTruthy s = true) (hne : s ≠ .str "EndedWithSales".data) :
    ∀ c, EbayMarketDataFetcher.processSoldItem item ≠ .ok (some c) := by
  intro c h
  obtain ⟨s', hs', hok⟩ := processSoldItem_state h
  rw [hs] at hs'
  injection hs' with he
  subst he
  rcases hok with hf | he
  · rw [ht] at hf
    exact Bool.true_eq_false ▸ hf
  · exact hne he

/-- Every comparable in a successful `soldCompsOfItems` result arises from
some item of the input via `processSoldItem`. -/
theorem soldCompsOfItems_mem {items : List JsonVal} {comps : List ListingComp}
    (h : EbayMarketDataFetcher.soldCompsOfItems items = .ok comps) :
    ∀ c ∈ comps, ∃ item ∈ items,
      EbayMarketDataFetcher.processSoldItem item = .ok (some c) := by
  induction items generalizing comps with
  | nil =>
    unfold EbayMarketDataFetcher.soldCompsOfItems at h
    injection h with he
    subst he
    intro c hc
    exact absurd hc (by simp)
  | cons item rest ih =>
    unfold EbayMarketDataFetcher.soldCompsOfItems at h
    split at h
    · exact absurd h (by simp)
    · rename_i cq hcq
      split at h
      · exact absurd h (by simp)
      · rename_i cs hcs
        split at h
        · rename_i c0 hc0
          injection h with he
          subst he
          intro c hc
          rcases List.mem_cons.mp hc with he | hm
          · exact ⟨item, List.mem_cons_self _ _, by rw [hcq, he]⟩
          · obtain ⟨it, hit, hp⟩ := ih hcs c hm
            exact ⟨it, List.mem_cons_of_mem _ hit, hp⟩
        · injection h with he
          subst he
          intro c hc
          obtain ⟨it, hit, hp⟩ := ih hcs c hc
          exact ⟨it, List.mem_cons_of_mem _ hit, hp⟩

/-- **C7** (counterexample): an item whose selling state is *absent* (the
default `[""]` makes it the empty string, which is falsy) is **included** in
the returned comparables, so not every returned comparable comes from an
item in the `"EndedWithSales"` state. -/
theorem sold_state_filter_counterexample :
    EbayMarketDataFetcher.soldCompsOfItems
        [.obj [("title".data, .arr [.str "Lamp".data]),
               ("sellingStatus".data, .arr [.obj []])]] =
      .ok [⟨.str "Lamp".data, none, .null, .null, .null, "eBay sold".data⟩] ∧
    EbayMarketDataFetcher.sellingStateOf
        (.obj [("title".data, .arr [.str "Lamp".data]),
               ("sellingStatus".data, .arr [.obj []])]) = .ok (.str []) ∧
    (JsonVal.str [] ≠ JsonVal.str "EndedWithSales".data) := by
  refine ⟨by decide, by decide, by decide⟩

/-- **C7** (amended).  For every successfully processed API response: every
returned comparable comes from an item whose selling state is either
`"EndedWithSales"` or falsy (absent/empty); and every item with a truthy
selling state different from `"EndedWithSales"` contributes no comparable. -/
theorem sold_comps_state_filter (items : List JsonVal) (comps : List ListingComp)
    (h : EbayMarketDataFetcher.soldCompsOfItems items = .ok comps) :
    (∀ c ∈ comps, ∃ item ∈ items, ∃ s,
      EbayMarketDataFetcher.sellingStateOf item = .ok s ∧
      (pyTruthy s = false ∨ s = .str "EndedWithSales".data) ∧
      EbayMarketDataFetcher.processSoldItem item = .ok (some c)) ∧
    (∀ item s, EbayMarketDataFetcher.sellingStateOf item = .ok s →
      pyTruthy s = true → s ≠ .str "EndedWithSales".data →
      ∀ c, EbayMarketDataFetcher.processSoldItem item ≠ .ok (some c)) := by
  constructor
  · intro c hc
    obtain ⟨item, hit, hp⟩ := soldCompsOfItems_mem h c hc
    obtain ⟨s, hs, hok⟩ := processSoldItem_state hp
    exact ⟨item, hit, s, hs, hok, hp⟩
  · intro item s hs ht hne
    exact processSoldItem_excluded hs ht hne

/-- Witness for C7 (amended): a response with one `"EndedWithSales"` item
and one `"Active"` item yields exactly the sold one. -/
theorem sold_comps_state_filter_witness :
    EbayMarketDataFetcher.soldCompsOfItems
        [.obj [("title".data, .arr [.str "Cup".data]),
               ("sellingStatus".data,
                 .arr [.obj [("sellingState".data, .arr [.str "EndedWithSales".data])]])],
         .obj [("title".data, .arr [.str "Vase".data]),
               ("sellingStatus".data,
                 .arr [.obj [("sellingState".data, .arr [.str "Active".data])]])]] =
      .ok [⟨.str "Cup".data, none, .null, .null, .null, "eBay sold".data⟩] ∧
    (∀ c ∈ [(⟨.str "Cup".data, none, .null, .null, .null, "eBay sold".data⟩ : ListingComp)],
      ∃ item ∈ [(.obj [("title".data, .arr [.str "Cup".data]),
               ("sellingStatus".data,
                 .arr [.obj [("sellingState".data, .arr [.str "EndedWithSales".data])]])] : JsonVal),
         .obj [("title".data, .arr [.str "Vase".data]),
               ("sellingStatus".data,
                 .arr [.obj [("sellingState".data, .arr [.str "Active".data])]])]], ∃ s,
        EbayMarketDataFetcher.sellingStateOf item = .ok s ∧
        (pyTruthy s = false ∨ s = .str "EndedWithSales".data) ∧
        EbayMarketDataFetcher.processSoldItem item = .ok (some c)) :=
  ⟨by decide,
    (sold_comps_state_filter
      [.obj [("title".data, .arr [.str "Cup".data]),
             ("sellingStatus".data,
               .arr [.obj [("sellingState".data, .arr [.str "EndedWithSales".data])]])],
       .obj [("title".data, .arr [.str "Vase".data]),
             ("sellingStatus".data,
               .arr [.obj [("sellingState".data, .arr [.str "Active".data])]])]]
      [⟨.str "Cup".data, none, .null, .null, .null, "eBay sold".data⟩]
      (by decide)).1⟩

/-- **C10** (counterexample): the claim fails when the sold summary's
currency is the *empty string*.  It differs from the item's `"EUR"`, yet
the assembled `ValuationResult` has a computed profit (not `none`) and its
`profit_currency` is the *item's* currency, not the sold summary's. -/
theorem evaluate_carries_sold_currency_counterexample :
    (ValuationEngine.evaluate true 10 (35/100) (some "Lamp".data) none 25 "EUR".data
        none none [⟨.str "t".data, some 10, .str [], .null, .null, "eBay sold".data⟩]
        []).sold_summary.sample_size = 1 ∧
    (ValuationEngine.evaluate true 10 (35/100) (some "Lamp".data) none 25 "EUR".data
        none none [⟨.str "t".data, some 10, .str [], .null, .null, "eBay sold".data⟩]
        []).sold_summary.currency = .str [] ∧
    (JsonVal.str [] ≠ JsonVal.str "EUR".data) ∧
    (ValuationEngine.evaluate true 10 (35/100) (some "Lamp".data) none 25 "EUR".data
        none none [⟨.str "t".data, some 10, .str [], .null, .null, "eBay sold".data⟩]
        []).profit = some (-15) ∧
    (ValuationEngine.evaluate true 10 (35/100) (some "Lamp".data) none 25 "EUR".data
        none none [⟨.str "t".data, some 10, .str [], .null, .null, "eBay sold".data⟩]
        []).profit_currency = .str "EUR".data := by
  have hq : (ListingNormalizer.normalize (some "Lamp".data) none none none).canonical_query ≠ [] := by
    decide
  have hfb : (true = true ∧
      (ListingNormalizer.normalize (some "Lamp".data) none none none).canonical_query ≠ []) :=
    ⟨rfl, hq⟩
  have hs : ValuationEngine.summarize
      [⟨.str "t".data, some 10, .str [], .null, .null, "eBay sold".data⟩]
      "eBay sold".data =
      { minimum := some 10, maximum := some 10, median := some 10,
        currency := .str [], sample_size := 1, source := "eBay sold".data,
        prices := [10] } := by
    simp [ValuationEngine.summarize, ValuationEngine.currencyGroups,
      ValuationEngine.groupAdd, ValuationEngine.maxGroup, pyMin, pyMax, pyMedian]
  have hsold : (ValuationEngine.evaluate true 10 (35/100) (some "Lamp".data) none 25 "EUR".data
      none none [⟨.str "t".data, some 10, .str [], .null, .null, "eBay sold".data⟩]
      []).sold_summary =
      ValuationEngine.summarize
        [⟨.str "t".data, some 10, .str [], .null, .null, "eBay sold".data⟩]
        "eBay sold".data := by
    show (if true = true ∧
        (ListingNormalizer.normalize (some "Lamp".data) none none none).canonical_query ≠ [] then
      ValuationEngine.summarize
        [⟨.str "t".data, some 10, .str [], .null, .null, "eBay sold".data⟩]
        "eBay sold".data
      else { source := "eBay sold".data }) = _
    rw [if_pos hfb]
  have hprof : (ValuationEngine.evaluate true 10 (35/100) (some "Lamp".data) none 25 "EUR".data
      none none [⟨.str "t".data, some 10, .str [], .null, .null, "eBay sold".data⟩]
      []).profit =
      (ValuationEngine.estimate_profit
        ((ValuationEngine.evaluate true 10 (35/100) (some "Lamp".data) none 25 "EUR".data
          none none [⟨.str "t".data, some 10, .str [], .null, .null, "eBay sold".data⟩]
          []).sold_summary) 25 "EUR".data).1 := rfl
  have hpc : (ValuationEngine.evaluate true 10 (35/100) (some "Lamp".data) none 25 "EUR".data
      none none [⟨.str "t".data, some 10, .str [], .null, .null, "eBay sold".data⟩]
      []).profit_currency =
      (ValuationEngine.estimate_profit
        ((ValuationEngine.evaluate true 10 (35/100) (some "Lamp".data) none 25 "EUR".data
          none none [⟨.str "t".data, some 10, .str [], .null, .null, "eBay sold".data⟩]
          []).sold_summary) 25 "EUR".data).2.1 := rfl
  refine ⟨by rw [hsold, hs], by rw [hsold, hs], by simp, ?_, ?_⟩
  · rw [hprof, hsold, hs]
    simp [ValuationEngine.estimate_profit, pyTruthy]
    norm_num
  · rw [hpc, hsold, hs]
    simp [ValuationEngine.estimate_profit, pyTruthy]

/-- **C10** (amended).  For every sold summary produced by `_summarize` with
`sample_size > 0` whose currency is *truthy (non-empty)* and differs from the
item's currency, the assembled `ValuationResult` has `profit = none` and
`profit_multiple = none`, but `profit_currency` equal to the sold summary's
currency (not `None` and not the item's currency). -/
theorem evaluate_carries_sold_currency (active_limit : ℤ) (t : ℚ)
    (title brand base : Option Str) (fuzzy : Option FuzzyResultDict)
    (price : ℚ) (currency : Str) (fetched_sold fetched_active : List ListingComp)
    (hquery : (ListingNormalizer.normalize title brand base fuzzy).canonical_query ≠ [])
    (hsample : 0 < (ValuationEngine.summarize fetched_sold "eBay sold".data).sample_size)
    (htruthy : pyTruthy (ValuationEngine.summarize fetched_sold "eBay sold".data).currency = true)
    (hdiff : (ValuationEngine.summarize fetched_sold "eBay sold".data).currency ≠ .str currency) :
    (ValuationEngine.evaluate true active_limit t title brand price currency base fuzzy
        fetched_sold fetched_active).profit = none ∧
    (ValuationEngine.evaluate true active_limit t title brand price currency base fuzzy
        fetched_sold fetched_active).profit_multiple = none ∧
    (ValuationEngine.evaluate true active_limit t title brand price currency base fuzzy
        fetched_sold fetched_active).profit_currency =
      (ValuationEngine.summarize fetched_sold "eBay sold".data).currency ∧
    (ValuationEngine.evaluate true active_limit t title brand price currency base fuzzy
        fetched_sold fetched_active).profit_currency ≠ .null ∧
    (ValuationEngine.evaluate true active_limit t title brand price currency base fuzzy
        fetched_sold fetched_active).profit_currency ≠ .str currency := by
  rcases summarize_spec fetched_sold "eBay sold".data with hdef | ⟨sorted, c, hne, heq⟩
  · rw [hdef] at hsample
    simp at hsample
  · have hlen : sorted.length ≠ 0 := fun e => hne (List.length_eq_zero.mp e)
    have hmis : pyTruthy c = true ∧ c ≠ .str currency := by
      rw [heq] at htruthy hdiff
      exact ⟨htruthy, hdiff⟩
    have hp : ValuationEngine.estimate_profit
        (ValuationEngine.summarize fetched_sold "eBay sold".data) price currency =
        (none, c, none) := by
      rw [heq]
      simp only [ValuationEngine.estimate_profit, if_neg hlen, if_pos hmis]
    have hcur : (ValuationEngine.summarize fetched_sold "eBay sold".data).currency = c := by
      rw [heq]
    have hcnull : c ≠ .null := by
      intro e
      rw [e] at hmis
      exact Bool.false_ne_true hmis.1
    have hfb : (true = true ∧
        (ListingNormalizer.normalize title brand base fuzzy).canonical_query ≠ []) :=
      ⟨rfl, hquery⟩
    have hsold : (ValuationEngine.evaluate true active_limit t title brand price currency base
        fuzzy fetched_sold fetched_active).sold_summary =
        ValuationEngine.summarize fetched_sold "eBay sold".data := by
      show (if true = true ∧
          (ListingNormalizer.normalize title brand base fuzzy).canonical_query ≠ [] then
        ValuationEngine.summarize fetched_sold "eBay sold".data
        else { source := "eBay sold".data }) = _
      rw [if_pos hfb]
    have hprof : (ValuationEngine.evaluate true active_limit t title brand price currency base
        fuzzy fetched_sold fetched_active).profit =
        (ValuationEngine.estimate_profit
          ((ValuationEngine.evaluate true active_limit t title brand price currency base
            fuzzy fetched_sold fetched_active).sold_summary) price currency).1 := rfl
    have hmult : (ValuationEngine.evaluate true active_limit t title brand price currency base
        fuzzy fetched_sold fetched_active).profit_multiple =
        (ValuationEngine.estimate_profit
          ((ValuationEngine.evaluate true active_limit t title brand price currency base
            fuzzy fetched_sold fetched_active).sold_summary) price currency).2.2 := rfl
    have hpc : (ValuationEngine.evaluate true active_limit t title brand price currency base
        fuzzy fetched_sold fetched_active).profit_currency =
        (ValuationEngine.estimate_profit
          ((ValuationEngine.evaluate true active_limit t title brand price currency base
            fuzzy fetched_sold fetched_active).sold_summary) price currency).2.1 := rfl
    rw [hprof, hmult, hpc, hsold, hp, hcur]
    exact ⟨rfl, rfl, rfl, hcnull, hmis.2⟩

/-- Witness for C10 (amended): one sold comp in USD against an item priced
in EUR. -/
theorem evaluate_carries_sold_currency_witness :
    ((ListingNormalizer.normalize (some "Lamp".data) none none none).canonical_query ≠ [] ∧
      0 < (ValuationEngine.summarize
        [⟨.str "t".data, some 10, .str "USD".data, .null, .null, "eBay sold".data⟩]
        "eBay sold".data).sample_size ∧
      pyTruthy (ValuationEngine.summarize
        [⟨.str "t".data, some 10, .str "USD".data, .null, .null, "eBay sold".data⟩]
        "eBay sold".data).currency = true ∧
      (ValuationEngine.summarize
        [⟨.str "t".data, some 10, .str "USD".data, .null, .null, "eBay sold".data⟩]
        "eBay sold".data).currency ≠ .str "EUR".data) ∧
    (ValuationEngine.evaluate true 10 (35/100) (some "Lamp".data) none 25 "EUR".data none none
        [⟨.str "t".data, some 10, .str "USD".data, .null, .null, "eBay sold".data⟩]
        []).profit = none ∧
    (ValuationEngine.evaluate true 10 (35/100) (some "Lamp".data) none 25 "EUR".data none none
        [⟨.str "t".data, some 10, .str "USD".data, .null, .null, "eBay sold".data⟩]
        []).profit_currency =
      (ValuationEngine.summarize
        [⟨.str "t".data, some 10, .str "USD".data, .null, .null, "eBay sold".data⟩]
        "eBay sold".data).currency := by
  have hs : ValuationEngine.summarize
      [⟨.str "t".data, some 10, .str "USD".data, .null, .null, "eBay sold".data⟩]
      "eBay sold".data =
      { minimum := some 10, maximum := some 10, median := some 10,
        currency := .str "USD".data, sample_size := 1, source := "eBay sold".data,
        prices := [10] } := by
    simp [ValuationEngine.summarize, ValuationEngine.currencyGroups,
      ValuationEngine.groupAdd, ValuationEngine.maxGroup, pyMin, pyMax, pyMedian]
  have h1 : (ListingNormalizer.normalize (some "Lamp".data) none none none).canonical_query ≠ [] := by
    decide
  have h2 : 0 < (ValuationEngine.summarize
      [⟨.str "t".data, some 10, .str "USD".data, .null, .null, "eBay sold".data⟩]
      "eBay sold".data).sample_size := by rw [hs]; simp
  have h3 : pyTruthy (ValuationEngine.summarize
      [⟨.str "t".data, some 10, .str "USD".data, .null, .null, "eBay sold".data⟩]
      "eBay sold".data).currency = true := by rw [hs]; decide
  have h4 : (ValuationEngine.summarize
      [⟨.str "t".data, some 10, .str "USD".data, .null, .null, "eBay sold".data⟩]
      "eBay sold".data).currency ≠ .str "EUR".data := by rw [hs]; decide
  have main := evaluate_carries_sold_currency 10 (35/100) (some "Lamp".data) none none none
    25 "EUR".data
    [⟨.str "t".data, some 10, .str "USD".data, .null, .null, "eBay sold".data⟩]
    [] h1 h2 h3 h4
  exact ⟨⟨h1, h2, h3, h4⟩, main.1, main.2.2.1⟩

/-- **C8** (code bug): the claim says price extraction is total — returning
`(none, none)` rather than raising on any malformed shape — but a mapping
input (a JSON object where the usual one-element array was expected) raises
`KeyError`: Python `dict[0]` raises `KeyError`, which the
`except (IndexError, TypeError)` clause does not catch. -/
theorem extract_price_keyerror_on_mapping :
    EbayMarketDataFetcher.extract_price
      (.obj [("__value__".data, .str "10.0".data)]) = .error .keyError := by
  decide

end VintedSniper
